import Mathlib

/-!
# Peggo orchestrator: embedding of the signer, the batch requester, the
# validator check and the peggy denom utilities

Go strings are byte sequences, errors are values, calls on the home chain,
the price feed and the query client are steps on an abstract world state that
also emit the events they perform.
-/

namespace Peggo

/-! ## Bytes, Go strings and hex (encoding/hex, go-ethereum common) -/

/-- One byte. Arithmetic on `Fin 256` wraps as Go's `byte` arithmetic does. -/
abbrev Byte := Fin 256

/-- A Go string: its sequence of bytes, so that `len(s)` is `s.length`. -/
abbrev GoString := List Byte

/-- The bytes of an ASCII literal of the source. -/
def ascii (s : String) : GoString := s.toList.map fun c => Fin.ofNat c.toNat

/-- The table `hextable = "0123456789abcdef"` of encoding/hex, at index `n`. -/
def hextable (n : Nat) : Byte :=
  if n < 10 then Fin.ofNat (48 + n) else Fin.ofNat (87 + n)

/-- The table `reverseHexTable` of encoding/hex: the value of a hex digit,
`none` where the table holds 0xff. -/
def fromHexChar (c : Byte) : Option Nat :=
  if 48 ≤ c.val ∧ c.val ≤ 57 then some (c.val - 48)
  else if 97 ≤ c.val ∧ c.val ≤ 102 then some (c.val - 87)
  else if 65 ≤ c.val ∧ c.val ≤ 70 then some (c.val - 55)
  else none

/-- The function hex.Encode: two lower-case digits per byte. -/
def hexEncode : List Byte → GoString
  | [] => []
  | v :: rest => hextable (v.val >>> 4) :: hextable (v.val &&& 0x0f) :: hexEncode rest

/-- The function hex.DecodeString with its error dropped (as `Hex2Bytes` does):
the bytes decoded before the first invalid digit or dangling last digit. -/
def hexDecode : GoString → List Byte
  | p :: q :: rest =>
    match fromHexChar p, fromHexChar q with
    | some a, some b => Fin.ofNat ((a <<< 4) ||| b) :: hexDecode rest
    | _, _ => []
  | _ => []

/-- The function `has0xPrefix` of go-ethereum. -/
def has0xPrefix (str : GoString) : Bool :=
  match str with
  | c0 :: c1 :: _ => c0 = 48 && (c1 = 120 || c1 = 88)
  | _ => false

/-- The function `common.FromHex`. -/
def FromHex (s : GoString) : List Byte :=
  let s1 := if has0xPrefix s then s.drop 2 else s
  let s2 := if s1.length % 2 = 1 then ascii "0" ++ s1 else s1
  hexDecode s2

/-- The length of an Ethereum address in bytes. -/
def AddressLength : Nat := 20

/-- The type `common.Address`: an array of 20 bytes. -/
structure Address where
  bytes : List Byte
  size : bytes.length = AddressLength
deriving DecidableEq

/-- The function `common.BytesToAddress` (`SetBytes`): keep the last 20 bytes,
left-pad with zeros. -/
def BytesToAddress (b : List Byte) : Address :=
  let b1 := if b.length > AddressLength then b.drop (b.length - AddressLength) else b
  ⟨List.replicate (AddressLength - b1.length) 0 ++ b1, by
    simp only [b1, AddressLength, List.length_append, List.length_replicate]
    split
    · rw [List.length_drop]; omega
    · omega⟩

/-- The function `common.HexToAddress`. -/
def HexToAddress (s : GoString) : Address := BytesToAddress (FromHex s)

/-- The method `Address.hex`: "0x" and the lower-case hex digits. -/
def Address.hex (a : Address) : GoString := ascii "0x" ++ hexEncode a.bytes

/-- The loop of `Address.checksumHex` from position `i` on: a letter is put in
upper case when the matching nibble of the hash is above 7. -/
def checksumLoop (hash : List Byte) : Nat → GoString → GoString
  | _, [] => []
  | i, c :: cs =>
    let hashByte0 := (hash.getD ((i - 2) / 2) 0).val
    let hashByte := if i % 2 = 0 then hashByte0 >>> 4 else hashByte0 &&& 0xf
    (if c.val > 57 ∧ hashByte > 7 then c - 32 else c) :: checksumLoop hash (i + 1) cs

/-- The method `Address.checksumHex` (EIP-55), which `%s` and `String()` print.
The legacy Keccak-256 hash is a parameter. -/
def Address.checksumHex (keccak256 : GoString → List Byte) (a : Address) : GoString :=
  let buf := a.hex
  let hash := keccak256 (buf.drop 2)
  buf.take 2 ++ checksumLoop hash 2 (buf.drop 2)

/-! ## orchestrator/ethereum/util/peggy.go -/

/-- The constant PeggyDenomPrefix. -/
def PeggyDenomPrefix : GoString := ascii "helios"

/-- The constant PeggyDenomSeperator. -/
def PeggyDenomSeperator : GoString := ascii "/"

/-- The constant ETHContractAddressLen. -/
def ETHContractAddressLen : Nat := 42

/-- The constant PeggyDenomLen. -/
def PeggyDenomLen : Nat :=
  PeggyDenomPrefix.length + PeggyDenomSeperator.length + ETHContractAddressLen

/-- A byte of the class `[0-9a-fA-F]`. -/
def isHexByte (c : Byte) : Bool :=
  (48 ≤ c.val && c.val ≤ 57) || (97 ≤ c.val && c.val ≤ 102) || (65 ≤ c.val && c.val ≤ 70)

/-- The test `hexRx.MatchString(a)` for `hexRx = ^0x[0-9a-fA-F]{40}$`; in Go `$`
without the `m` flag matches at the end of the text only. -/
def hexRxMatch (a : GoString) : Bool :=
  match a with
  | 48 :: 120 :: rest => rest.length == 40 && rest.all isHexByte
  | _ => false

/-- The errors of ValidateEthAddress, one per `errors.Errorf` site. -/
inductive AddressError where
  | emptyAddress
  | regexMismatch
  | wrongLength
deriving DecidableEq, Repr

/-- ValidateEthAddress validates the ethereum address string. -/
def ValidateEthAddress (a : GoString) : Option AddressError :=
  if a.length = 0 then some .emptyAddress
  else if !hexRxMatch a then some .regexMismatch
  else if a.length ≠ ETHContractAddressLen then some .wrongLength
  else none

/-- The function `strings.Split(s, sep)` for a separator of one byte `sep`
(PeggyDenomSeperator is "/"): the pieces between the occurrences of `sep`. -/
def splitByte (sep : Byte) : GoString → List GoString
  | [] => [[]]
  | c :: cs =>
    if c = sep then [] :: splitByte sep cs
    else
      match splitByte sep cs with
      | [] => [[c]]
      | p :: ps => (c :: p) :: ps

/-- The call `strings.Split(s, PeggyDenomSeperator)`. -/
def Split (s : GoString) : List GoString := splitByte 47 s

/-- The type sdk.Coin. -/
structure Coin where
  Denom : GoString
  Amount : Int
deriving DecidableEq

/-- The type ERC20Token; `Amount` is a non-nil `*big.Int`. -/
structure ERC20Token where
  Amount : Int
  Contract : Address
deriving DecidableEq

/-- The errors of ValidatePeggyCoin, one per `errors.Errorf` site. -/
inductive CoinError where
  | fewerSeparators
  | moreSeparators
  | prefixMismatch
  | badContract (err : AddressError)
  | wrongDenomLen
  | notPeggyCoin (err : CoinError)
deriving DecidableEq, Repr

/-- ValidatePeggyCoin returns the contract of a coin that is the peggy
representation of an ERC20 token, and the empty string with an error otherwise. -/
def ValidatePeggyCoin (v : Coin) : GoString × Option CoinError :=
  let parts := Split v.Denom
  if parts.length < 2 then ([], some .fewerSeparators)
  else
    let denomPrefix := parts.getD 0 []
    let contract := parts.getD 1 []
    let err := ValidateEthAddress contract
    if parts.length ≠ 2 then ([], some .moreSeparators)
    else if denomPrefix ≠ PeggyDenomPrefix then ([], some .prefixMismatch)
    else
      match err with
      | some e => ([], some (.badContract e))
      | none =>
        if v.Denom.length ≠ PeggyDenomLen then ([], some .wrongDenomLen)
        else (contract, none)

/-- ERC20FromPeggyCoin returns the ERC20 representation of a given peggy coin. -/
def ERC20FromPeggyCoin (v : Coin) : Option ERC20Token × Option CoinError :=
  match ValidatePeggyCoin v with
  | (_, some err) => (none, some (.notPeggyCoin err))
  | (contract, none) => (some { Contract := HexToAddress contract, Amount := v.Amount }, none)

/-- The constant `MaxBitLen` of cosmossdk.io/math. -/
def MaxBitLen : Nat := 256

/-- The method `big.Int.BitLen`: the length of the absolute value in bits. -/
def BitLen (i : Int) : Nat := Nat.size i.natAbs

/-- The function `sdkmath.NewIntFromBigInt` on a non-nil argument: it panics
(`none`) when the bit length exceeds MaxBitLen. -/
def NewIntFromBigInt (i : Int) : Option Int :=
  if BitLen i > MaxBitLen then none else some i

/-- A byte of the class `[a-zA-Z]`. -/
def isLetterByte (c : Byte) : Bool :=
  (97 ≤ c.val && c.val ≤ 122) || (65 ≤ c.val && c.val ≤ 90)

/-- A byte of the class `[a-zA-Z0-9/:._-]`. -/
def isDenomByte (c : Byte) : Bool :=
  isLetterByte c || (48 ≤ c.val && c.val ≤ 57) || c = 47 || c = 58 || c = 46 || c = 95 || c = 45

/-- The function `sdk.ValidateDenom`: the denom matches
`^[a-zA-Z][a-zA-Z0-9/:._-]{2,127}$`. -/
def ValidateDenom (denom : GoString) : Bool :=
  match denom with
  | [] => false
  | c :: rest => isLetterByte c && 2 ≤ rest.length && rest.length ≤ 127 && rest.all isDenomByte

/-- The function `sdk.NewCoin`: it panics (`none`) on an invalid denom or a
negative amount. -/
def NewCoin (denom : GoString) (amount : Int) : Option Coin :=
  if !ValidateDenom denom then none
  else if amount < 0 then none
  else some { Denom := denom, Amount := amount }

/-- PeggyCoin returns the peggy representation of the ERC20; `none` is a panic
of NewIntFromBigInt or NewCoin. -/
def ERC20Token.PeggyCoin (keccak256 : GoString → List Byte) (e : ERC20Token) : Option Coin :=
  match NewIntFromBigInt e.Amount with
  | none => none
  | some amount =>
    NewCoin (PeggyDenomPrefix ++ ascii "/" ++ e.Contract.checksumHex keccak256) amount

/-! ## The decimal library (shopspring/decimal) and float64 values -/

/-- The type decimal.Decimal: `value * 10 ^ exp`. The exponent is an int32 in
Go; Mul panics when the sum of two exponents leaves int32, which no decimal
built by NewFromFloat or NewFromBigInt(_, -18) reaches. -/
structure Decimal where
  value : Int
  exp : Int
deriving DecidableEq, Repr

/-- The function decimal.NewFromBigInt. -/
def Decimal.NewFromBigInt (value : Int) (exp : Int) : Decimal := { value := value, exp := exp }

/-- The method Decimal.Mul: exact, the values multiply and the exponents add. -/
def Decimal.Mul (d d2 : Decimal) : Decimal :=
  { value := d.value * d2.value, exp := d.exp + d2.exp }

/-- The method Decimal.rescale; it is only called with `exp ≤ d.exp` by
RescalePair, where it is exact. -/
def Decimal.rescale (d : Decimal) (exp : Int) : Decimal :=
  if d.exp = exp then d
  else
    let diff := (exp - d.exp).natAbs
    let expScale : Int := 10 ^ diff
    if exp > d.exp then { value := d.value.tdiv expScale, exp := exp }
    else { value := d.value * expScale, exp := exp }

/-- The function decimal.RescalePair: both decimals at the smaller exponent. -/
def Decimal.RescalePair (d1 d2 : Decimal) : Decimal × Decimal :=
  if d1.exp = d2.exp then (d1, d2)
  else
    let baseScale := min d1.exp d2.exp
    if baseScale ≠ d1.exp then (d1.rescale baseScale, d2) else (d1, d2.rescale baseScale)

/-- The method Decimal.Cmp: -1, 0 or 1. -/
def Decimal.Cmp (d d2 : Decimal) : Int :=
  if d.exp = d2.exp then
    if d.value < d2.value then -1 else if d.value = d2.value then 0 else 1
  else
    let p := Decimal.RescalePair d d2
    if p.1.value < p.2.value then -1 else if p.1.value = p.2.value then 0 else 1

/-- The method Decimal.LessThan. -/
def Decimal.LessThan (d d2 : Decimal) : Bool := d.Cmp d2 = -1

/-- The number a decimal stands for. -/
def Decimal.toRat (d : Decimal) : ℚ := (d.value : ℚ) * (10 : ℚ) ^ d.exp

/-- A finite float64 as the batch requester observes it: `isZero` is the outcome
of `x == 0`, `dec` is the decimal that decimal.NewFromFloat builds from `x` (the
shortest decimal that parses back to `x`, so 48.99 gives 4899 * 10^-2).
NewFromFloat panics on NaN and on the infinities, which are no prices. -/
structure Float64 where
  isZero : Bool
  dec : Decimal
deriving DecidableEq, Repr

/-- The function decimal.NewFromFloat. -/
def Decimal.NewFromFloat (x : Float64) : Decimal := x.dec

/-! ## Chain data, clients and events -/

/-- An error value returned by a client. -/
abbrev GoError := String

/-- The type sdk.AccAddress. -/
abbrev AccAddress := List Byte

/-- The type gethcommon.Hash. -/
abbrev Hash := List Byte

/-- The type peggytypes.BridgeValidator. -/
structure BridgeValidator where
  Power : Nat
  EthereumAddress : GoString
deriving DecidableEq

/-- The type peggytypes.Valset. -/
structure Valset where
  Nonce : Nat
  Members : List BridgeValidator
  Height : Nat
deriving DecidableEq

/-- The type peggytypes.OutgoingTxBatch. -/
structure OutgoingTxBatch where
  BatchNonce : Nat
  BatchTimeout : Nat
  Transactions : List Nat
  TokenContract : GoString
deriving DecidableEq

/-- The type types.BatchFees. -/
structure BatchFees where
  Token : GoString
  TotalFees : Int
deriving DecidableEq

/-- A call on a client, as performed; the broadcasts carry the error returned. -/
inductive Event where
  | oldestUnsignedValsets (valAccountAddress : AccAddress)
  | sendValsetConfirm (ethFrom : Address) (peggyID : Hash) (valset : Valset)
      (err : Option GoError)
  | oldestUnsignedTransactionBatch (valAccountAddress : AccAddress)
  | sendBatchConfirm (ethFrom : Address) (peggyID : Hash) (batch : OutgoingTxBatch)
      (err : Option GoError)
  | unbatchedTokenFees
  | queryUSDPrice (token : Address)
  | sendRequestBatch (denom : GoString)
deriving DecidableEq

/-- The methods of the home-chain client that the signer calls (`l.helios`).
A Go result `(v, err)` is the pair of both; `W` is the state of the world. -/
structure HeliosNetwork (W : Type) where
  OldestUnsignedValsets : AccAddress → W → (List Valset × Option GoError) × W
  SendValsetConfirm : Address → Hash → Valset → W → Option GoError × W
  OldestUnsignedTransactionBatch :
    AccAddress → W → (Option OutgoingTxBatch × Option GoError) × W
  SendBatchConfirm : Address → Hash → OutgoingTxBatch → W → Option GoError × W

/-- The methods of InjectiveNetwork that the batch requester calls. -/
structure InjectiveNetwork (W : Type) where
  UnbatchedTokenFees : W → (List BatchFees × Option GoError) × W
  SendRequestBatch : GoString → W → Option GoError × W

/-- The interface PriceFeed. -/
structure PriceFeed (W : Type) where
  QueryUSDPrice : Address → W → (Float64 × Option GoError) × W

/-- The method of cosmos.PeggyQueryClient that isValidatorAddress calls; the
valset is a pointer that may be nil. -/
structure PeggyQueryClient (W : Type) where
  CurrentValset : W → (Option Valset × Option GoError) × W

/-- A step of the program on state `σ`: the value, the new state and the events
performed, in order. -/
abbrev Act (σ α : Type) := σ → α × σ × List Event

/-! ## The retrier -/

/-- Modelled from the spec: the retrier (`Orchestrator.retry`, and `retry.Do`
with `retry.Attempts(maxAttempts)`), whose code is not among the sources.
Spec §4.2: execute a fallible thunk up to `max_attempts` times, any error
retries, surface the last error if all attempts fail. `n` attempts are left and
`last` is the error of the latest attempt. The backoff sleep and cancellation
are not modelled: the context is not cancelled during the tick. -/
def retryFrom {σ : Type} (fn : Act σ (Option GoError)) :
    Nat → Option GoError → Act σ (Option GoError)
  | 0, last, s => (last, s, [])
  | n + 1, _, s =>
    match fn s with
    | (none, s1, evs) => (none, s1, evs)
    | (some err, s1, evs) =>
      let r := retryFrom fn n (some err) s1
      (r.1, r.2.1, evs ++ r.2.2)

/-- Modelled from the spec: the retrier of §4.2 started with `maxAttempts`
attempts, see retryFrom. -/
def retry {σ : Type} (maxAttempts : Nat) (fn : Act σ (Option GoError)) :
    Act σ (Option GoError) :=
  retryFrom fn maxAttempts none

/-! ## orchestrator/signer.go -/

/-- The fields `cfg.CosmosAddr` and `cfg.EthereumAddr` of the orchestrator. -/
structure Config where
  CosmosAddr : AccAddress
  EthereumAddr : Address

/-- The type signer with the fields of the embedded Orchestrator it uses. -/
structure signer (W : Type) where
  helios : HeliosNetwork W
  cfg : Config
  maxAttempts : Nat
  peggyID : Hash

/-- The closure `fn` of signValidatorSets on the captured variable `valsets`
and the world: it stores the list, drops the error and returns nil. -/
def signer.getValsetsFn {W : Type} (l : signer W) : Act (List Valset × W) (Option GoError) :=
  fun s =>
    let r := l.helios.OldestUnsignedValsets l.cfg.CosmosAddr s.2
    (none, (r.1.1, r.2), [Event.oldestUnsignedValsets l.cfg.CosmosAddr])

/-- The closure passed to retry in the loop of signValidatorSets. -/
def signer.sendValsetConfirmFn {W : Type} (l : signer W) (vs : Valset) :
    Act W (Option GoError) :=
  fun w =>
    let r := l.helios.SendValsetConfirm l.cfg.EthereumAddr l.peggyID vs w
    (r.1, r.2, [Event.sendValsetConfirm l.cfg.EthereumAddr l.peggyID vs r.1])

/-- The loop `for _, vs := range valsets` of signValidatorSets. -/
def signer.confirmValsets {W : Type} (l : signer W) : List Valset → Act W (Option GoError)
  | [], w => (none, w, [])
  | vs :: rest, w =>
    match retry l.maxAttempts (l.sendValsetConfirmFn vs) w with
    | (some err, w1, evs) => (some err, w1, evs)
    | (none, w1, evs) =>
      let r := signer.confirmValsets l rest w1
      (r.1, r.2.1, evs ++ r.2.2)

/-- The method signer.signValidatorSets. -/
def signer.signValidatorSets {W : Type} (l : signer W) : Act W (Option GoError) :=
  fun w =>
    match retry l.maxAttempts l.getValsetsFn ([], w) with
    | (some err, s, evs) => (some err, s.2, evs)
    | (none, (valsets, w1), evs) =>
      if valsets.length = 0 then (none, w1, evs)
      else
        let r := l.confirmValsets valsets w1
        (r.1, r.2.1, evs ++ r.2.2)

/-- The closure `getBatchFn` of signNewBatch on the captured variable
`oldestUnsignedBatch` and the world. -/
def signer.getBatchFn {W : Type} (l : signer W) :
    Act (Option OutgoingTxBatch × W) (Option GoError) :=
  fun s =>
    let r := l.helios.OldestUnsignedTransactionBatch l.cfg.CosmosAddr s.2
    (none, (r.1.1, r.2), [Event.oldestUnsignedTransactionBatch l.cfg.CosmosAddr])

/-- The closure passed to retry at the end of signNewBatch. -/
def signer.sendBatchConfirmFn {W : Type} (l : signer W) (batch : OutgoingTxBatch) :
    Act W (Option GoError) :=
  fun w =>
    let r := l.helios.SendBatchConfirm l.cfg.EthereumAddr l.peggyID batch w
    (r.1, r.2, [Event.sendBatchConfirm l.cfg.EthereumAddr l.peggyID batch r.1])

/-- The method signer.signNewBatch. -/
def signer.signNewBatch {W : Type} (l : signer W) : Act W (Option GoError) :=
  fun w =>
    match retry l.maxAttempts l.getBatchFn (none, w) with
    | (some err, s, evs) => (some err, s.2, evs)
    | (none, (oldestUnsignedBatch, w1), evs) =>
      match oldestUnsignedBatch with
      | none => (none, w1, evs)
      | some batch =>
        let r := retry l.maxAttempts (l.sendBatchConfirmFn batch) w1
        (r.1, r.2.1, evs ++ r.2.2)

/-- The method signer.sign: one tick of the signer. -/
def signer.sign {W : Type} (l : signer W) : Act W (Option GoError) :=
  fun w =>
    match l.signValidatorSets w with
    | (some err, w1, evs) => (some err, w1, evs)
    | (none, w1, evs) =>
      match l.signNewBatch w1 with
      | (some err, w2, evs2) => (some err, w2, evs ++ evs2)
      | (none, w2, evs2) => (none, w2, evs ++ evs2)

/-! ## orchestrator/batch_request.go -/

/-- The type batchRequestLoop with the fields of the embedded PeggyOrchestrator
it uses; a Go map is its lookup function. -/
structure batchRequestLoop where
  erc20ContractMapping : Address → Option GoString
  minBatchFeeUSD : Float64
  maxAttempts : Nat

/-- The method batchRequestLoop.tokenDenom; `PeggyDenomString` of the chain SDK
is a parameter. -/
def batchRequestLoop.tokenDenom (l : batchRequestLoop) (PeggyDenomString : Address → GoString)
    (tokenAddr : Address) : GoString :=
  match l.erc20ContractMapping tokenAddr with
  | some cosmosDenom => cosmosDenom
  | none => PeggyDenomString tokenAddr

/-- The method batchRequestLoop.checkFeeThreshold. -/
def batchRequestLoop.checkFeeThreshold {W : Type} (l : batchRequestLoop) (feed : PriceFeed W)
    (tokenAddr : Address) (fees : Int) : Act W Bool :=
  fun w =>
    if l.minBatchFeeUSD.isZero then (true, w, [])
    else
      let r := feed.QueryUSDPrice tokenAddr w
      let tokenPriceInUSD := r.1.1
      match r.1.2 with
      | some _ => (false, r.2, [Event.queryUSDPrice tokenAddr])
      | none =>
        let minFeeInUSDDec := Decimal.NewFromFloat l.minBatchFeeUSD
        let tokenPriceInUSDDec := Decimal.NewFromFloat tokenPriceInUSD
        let totalFeeInUSDDec := (Decimal.NewFromBigInt fees (-18)).Mul tokenPriceInUSDDec
        if totalFeeInUSDDec.LessThan minFeeInUSDDec then
          (false, r.2, [Event.queryUSDPrice tokenAddr])
        else (true, r.2, [Event.queryUSDPrice tokenAddr])

/-- The method batchRequestLoop.requestBatch. -/
def batchRequestLoop.requestBatch {W : Type} (l : batchRequestLoop)
    (PeggyDenomString : Address → GoString) (injective : InjectiveNetwork W)
    (feed : PriceFeed W) (fee : BatchFees) : Act W Unit :=
  fun w =>
    let tokenAddr := HexToAddress fee.Token
    let tokenDenom := l.tokenDenom PeggyDenomString tokenAddr
    match l.checkFeeThreshold feed tokenAddr fee.TotalFees w with
    | (false, w1, evs) => ((), w1, evs)
    | (true, w1, evs) =>
      let r := injective.SendRequestBatch tokenDenom w1
      ((), r.2, evs ++ [Event.sendRequestBatch tokenDenom])

/-- The closure `getUnbatchedTokenFeesFn` on the captured variable
`unbatchedFees` and the world. -/
def batchRequestLoop.getUnbatchedTokenFeesFn {W : Type} (injective : InjectiveNetwork W) :
    Act (List BatchFees × W) (Option GoError) :=
  fun s =>
    let r := injective.UnbatchedTokenFees s.2
    (r.1.2, (r.1.1, r.2), [Event.unbatchedTokenFees])

/-- The method batchRequestLoop.getUnbatchedTokenFees. -/
def batchRequestLoop.getUnbatchedTokenFees {W : Type} (l : batchRequestLoop)
    (injective : InjectiveNetwork W) : Act W (List BatchFees × Option GoError) :=
  fun w =>
    match retry l.maxAttempts (batchRequestLoop.getUnbatchedTokenFeesFn injective) ([], w) with
    | (some err, s, evs) => (([], some err), s.2, evs)
    | (none, s, evs) => ((s.1, none), s.2, evs)

/-- The loop `for _, fee := range fees` of loopFn. -/
def batchRequestLoop.requestBatches {W : Type} (l : batchRequestLoop)
    (PeggyDenomString : Address → GoString) (injective : InjectiveNetwork W)
    (feed : PriceFeed W) : List BatchFees → Act W Unit
  | [], w => ((), w, [])
  | fee :: rest, w =>
    let r := l.requestBatch PeggyDenomString injective feed fee w
    let r2 := batchRequestLoop.requestBatches l PeggyDenomString injective feed rest r.2.1
    ((), r2.2.1, r.2.2 ++ r2.2.2)

/-- The function returned by batchRequestLoop.loopFn: one tick of the batch
requester. -/
def batchRequestLoop.loopFn {W : Type} (l : batchRequestLoop)
    (PeggyDenomString : Address → GoString) (injective : InjectiveNetwork W)
    (feed : PriceFeed W) : Act W (Option GoError) :=
  fun w =>
    match l.getUnbatchedTokenFees injective w with
    | ((_, some _), w1, evs) => (none, w1, evs)
    | ((fees, none), w1, evs) =>
      if fees.length = 0 then (none, w1, evs)
      else
        let r := l.requestBatches PeggyDenomString injective feed fees w1
        (none, r.2.1, evs ++ r.2.2)

/-! ## cmd/peggo/orchestrator.go -/

/-- The loop of isValidatorAddress over the members, from the flag so far. -/
def isValidatorLoop (addr : Address) : Bool → List BridgeValidator → Bool
  | isValidator, [] => isValidator
  | isValidator, validator :: rest =>
    if HexToAddress validator.EthereumAddress = addr then isValidatorLoop addr true rest
    else isValidatorLoop addr isValidator rest

/-- The function isValidatorAddress; the outer `none` is the panic of reading
`Members` through a nil valset returned without an error. -/
def isValidatorAddress {W : Type} (peggyQuery : PeggyQueryClient W) (addr : Address) (w : W) :
    Option (Bool × Option GoError) × W :=
  let r := peggyQuery.CurrentValset w
  match r.1.2 with
  | some err => (some (false, some err), r.2)
  | none =>
    match r.1.1 with
    | none => (none, r.2)
    | some currentValset => (some (isValidatorLoop addr false currentValset.Members, none), r.2)

/-! ## Reading a trace -/

/-- The tokens whose price the trace queries, in order. -/
def queriedTokens : List Event → List Address
  | [] => []
  | Event.queryUSDPrice token :: rest => token :: queriedTokens rest
  | _ :: rest => queriedTokens rest

/-- The denoms for which the trace requests a batch, in order. -/
def requestedDenoms : List Event → List GoString
  | [] => []
  | Event.sendRequestBatch denom :: rest => denom :: requestedDenoms rest
  | _ :: rest => requestedDenoms rest

/-- The valset confirmations the trace broadcasts, in order, each with the
sender address, the peg id, the valset and the error returned. -/
def valsetConfirms : List Event → List (Address × Hash × Valset × Option GoError)
  | [] => []
  | Event.sendValsetConfirm ethFrom peggyID valset err :: rest =>
    (ethFrom, peggyID, valset, err) :: valsetConfirms rest
  | _ :: rest => valsetConfirms rest

/-- The valset confirmations of the trace that succeeded, in order. -/
def confirmedValsets : List Event → List (Address × Hash × Valset)
  | [] => []
  | Event.sendValsetConfirm ethFrom peggyID valset none :: rest =>
    (ethFrom, peggyID, valset) :: confirmedValsets rest
  | _ :: rest => confirmedValsets rest

/-- Whether the broadcast of the event, if it is one, returned no error. -/
def Event.broadcastOk : Event → Bool
  | Event.sendValsetConfirm _ _ _ (some _) => false
  | Event.sendBatchConfirm _ _ _ (some _) => false
  | _ => true

/-- Whether every broadcast of the trace succeeded. -/
def allBroadcastsSucceed (evs : List Event) : Bool := evs.all Event.broadcastOk

/-- The trace read against the chain from the world `w`: every event of the
signer must be the call it names, made on the chain in this order, and every
broadcast must carry the error the chain returned to it; the result is the
world the chain is left in, `none` when an event is not what the chain did. -/
def replay {W : Type} (helios : HeliosNetwork W) : List Event → W → Option W
  | [], w => some w
  | Event.oldestUnsignedValsets valAccountAddress :: rest, w =>
    replay helios rest (helios.OldestUnsignedValsets valAccountAddress w).2
  | Event.sendValsetConfirm ethFrom peggyID valset err :: rest, w =>
    if (helios.SendValsetConfirm ethFrom peggyID valset w).1 = err then
      replay helios rest (helios.SendValsetConfirm ethFrom peggyID valset w).2
    else none
  | Event.oldestUnsignedTransactionBatch valAccountAddress :: rest, w =>
    replay helios rest (helios.OldestUnsignedTransactionBatch valAccountAddress w).2
  | Event.sendBatchConfirm ethFrom peggyID batch err :: rest, w =>
    if (helios.SendBatchConfirm ethFrom peggyID batch w).1 = err then
      replay helios rest (helios.SendBatchConfirm ethFrom peggyID batch w).2
    else none
  | Event.unbatchedTokenFees :: _, _ => none
  | Event.queryUSDPrice _ :: _, _ => none
  | Event.sendRequestBatch _ :: _, _ => none

/-- The chain accepting the confirmation of every valset of the list, one
broadcast each in the order of the list, from the world `w`: the world it is
left in, `none` when the chain returns an error to one of them. -/
def acceptsAll {W : Type} (helios : HeliosNetwork W) (ethFrom : Address) (peggyID : Hash) :
    List Valset → W → Option W
  | [], w => some w
  | vs :: rest, w =>
    match helios.SendValsetConfirm ethFrom peggyID vs w with
    | (none, w1) => acceptsAll helios ethFrom peggyID rest w1
    | (some _, _) => none

/-! ## A home chain with a fixed answer to each read -/

/-- The valset of nonce `n`, with two members. -/
def Demo.valset (n : Nat) : Valset :=
  { Nonce := n
    Members := [{ Power := 2147483648, EthereumAddress := ascii "0x0a" },
      { Power := 2147483648, EthereumAddress := ascii "0x0b" }]
    Height := 10 }

/-- A batch of one transaction. -/
def Demo.batch : OutgoingTxBatch :=
  { BatchNonce := 4, BatchTimeout := 100, Transactions := [1], TokenContract := ascii "0x01" }

/-- A home chain that lists `valsets` and `batch` as unsigned and rejects the
confirmation of a valset whose nonce is `bad`; the world counts the broadcasts. -/
def Demo.helios (valsets : List Valset) (batch : Option OutgoingTxBatch) (bad : Nat → Bool) :
    HeliosNetwork Nat :=
  { OldestUnsignedValsets := fun _ w => ((valsets, none), w)
    SendValsetConfirm := fun _ _ vs w =>
      if bad vs.Nonce then (some "rejected", w + 1) else (none, w + 1)
    OldestUnsignedTransactionBatch := fun _ w => ((batch, none), w)
    SendBatchConfirm := fun _ _ _ w => (none, w + 1) }

/-- A signer on the chain above with `max_attempts = 2`. -/
def Demo.signer (valsets : List Valset) (batch : Option OutgoingTxBatch) (bad : Nat → Bool) :
    Peggo.signer Nat :=
  { helios := Demo.helios valsets batch bad
    cfg := { CosmosAddr := [], EthereumAddr := BytesToAddress [1] }
    maxAttempts := 2
    peggyID := List.replicate 32 17 }

/-! ## A home chain whose reads fail once -/

/-- The valset the flaky chain lists. -/
def Flaky.valset : Valset := { Nonce := 7, Members := [], Height := 1 }

/-- The batch the flaky chain lists. -/
def Flaky.batch : OutgoingTxBatch :=
  { BatchNonce := 4, BatchTimeout := 100, Transactions := [1], TokenContract := [] }

/-- A home chain whose two reads each fail on their first call (nil and an
error) and return a non-empty result on every later call; the world counts the
calls of either read. Every broadcast succeeds. -/
def Flaky.helios : HeliosNetwork (Nat × Nat) :=
  { OldestUnsignedValsets := fun _ w =>
      if w.1 = 0 then (([], some "rpc unavailable"), (w.1 + 1, w.2))
      else (([Flaky.valset], none), (w.1 + 1, w.2))
    SendValsetConfirm := fun _ _ _ w => (none, w)
    OldestUnsignedTransactionBatch := fun _ w =>
      if w.2 = 0 then ((none, some "rpc unavailable"), (w.1, w.2 + 1))
      else ((some Flaky.batch, none), (w.1, w.2 + 1))
    SendBatchConfirm := fun _ _ _ w => (none, w) }

/-- A signer on the flaky chain with `max_attempts = 2`. -/
def Flaky.signerTwo : Peggo.signer (Nat × Nat) :=
  { helios := Flaky.helios
    cfg := { CosmosAddr := [], EthereumAddr := BytesToAddress [1] }
    maxAttempts := 2
    peggyID := [] }

/-- A signer on the flaky chain with the default `max_attempts = 10`. -/
def Flaky.signerTen : Peggo.signer (Nat × Nat) :=
  { helios := Flaky.helios
    cfg := { CosmosAddr := [], EthereumAddr := BytesToAddress [1] }
    maxAttempts := 10
    peggyID := [] }

/-! ## Scenario S4 of the spec: one whole unit of fees, minimum fee 49.0 -/

/-- The batch requester of S4: `min_batch_fee_usd = 49.0`, no special token. -/
def S4.loop : batchRequestLoop :=
  { erc20ContractMapping := fun _ => none
    minBatchFeeUSD := { isZero := false, dec := { value := 49, exp := 0 } }
    maxAttempts := 10 }

/-- The fee entry of S4: `total_fees = 1e18` for the token at 0x00..01. -/
def S4.fee : BatchFees :=
  { Token := ascii "0x0000000000000000000000000000000000000001", TotalFees := 10 ^ 18 }

/-- A price feed that always answers `price`; the world counts its queries. -/
def S4.feed (price : Float64) : PriceFeed Nat :=
  { QueryUSDPrice := fun _ w => ((price, none), w + 1) }

/-- A price feed that always fails. -/
def S4.brokenFeed : PriceFeed Nat :=
  { QueryUSDPrice := fun _ w => (({ isZero := true, dec := { value := 0, exp := 0 } },
      some "price feed down"), w + 1) }

/-- A home chain that lists the entries `fees` and accepts every request. -/
def S4.chain (fees : List BatchFees) : InjectiveNetwork Nat :=
  { UnbatchedTokenFees := fun w => ((fees, none), w)
    SendRequestBatch := fun _ w => (none, w) }

/-- A denom builder standing for `PeggyDenomString`: the prefix and the hex
form of the address. -/
def S4.denomString (tokenAddr : Address) : GoString := PeggyDenomPrefix ++ tokenAddr.hex

/-- The price 48.99 as NewFromFloat reads it. -/
def S4.price4899 : Float64 := { isZero := false, dec := { value := 4899, exp := -2 } }

/-- The price 49.01 as NewFromFloat reads it. -/
def S4.price4901 : Float64 := { isZero := false, dec := { value := 4901, exp := -2 } }

/-! ## Splitting at a byte -/

theorem splitByte_ne_nil (sep : Byte) (s : GoString) : splitByte sep s ≠ [] := by
  cases s with
  | nil => simp [splitByte]
  | cons c cs =>
    unfold splitByte
    split
    · simp
    · split <;> simp

theorem splitByte_of_not_mem (sep : Byte) (s : GoString) (h : sep ∉ s) :
    splitByte sep s = [s] := by
  induction s with
  | nil => rfl
  | cons c cs ih =>
    have hc : c ≠ sep := fun e => h (by simp [e])
    have hcs : sep ∉ cs := fun e => h (List.mem_cons_of_mem _ e)
    unfold splitByte
    rw [if_neg hc, ih hcs]

theorem splitByte_append (sep : Byte) (p c : GoString) (h : sep ∉ p) :
    splitByte sep (p ++ sep :: c) = p :: splitByte sep c := by
  induction p with
  | nil => simp [splitByte]
  | cons x xs ih =>
    have hx : x ≠ sep := fun e => h (by simp [e])
    have hxs : sep ∉ xs := fun e => h (List.mem_cons_of_mem _ e)
    rw [List.cons_append, splitByte, if_neg hx, ih hxs]

theorem splitByte_eq_single (sep : Byte) (s c : GoString) (h : splitByte sep s = [c]) :
    s = c := by
  induction s generalizing c with
  | nil => simpa [splitByte] using h
  | cons x xs ih =>
    unfold splitByte at h
    split at h
    · simp only [List.cons.injEq] at h
      exact absurd h.2 (splitByte_ne_nil sep xs)
    · split at h
      · next hnil => exact absurd hnil (splitByte_ne_nil sep xs)
      · next p ps hp =>
        simp only [List.cons.injEq] at h
        obtain ⟨h1, h2⟩ := h
        subst h2
        rw [← h1, ih p hp]

theorem splitByte_eq_pair (sep : Byte) (s p c : GoString) (h : splitByte sep s = [p, c]) :
    s = p ++ sep :: c := by
  induction s generalizing p with
  | nil => simp [splitByte] at h
  | cons x xs ih =>
    unfold splitByte at h
    split at h
    · next hx =>
      simp only [List.cons.injEq] at h
      obtain ⟨h1, h2⟩ := h
      rw [← h1, hx, splitByte_eq_single sep xs c h2]
      rfl
    · split at h
      · next hnil => exact absurd hnil (splitByte_ne_nil sep xs)
      · next q qs hq =>
        simp only [List.cons.injEq] at h
        obtain ⟨h1, h2⟩ := h
        rw [h2] at hq
        rw [← h1, ih q hq]
        rfl

/-! ## Hex digits -/

set_option maxRecDepth 100000 in
theorem isHexByte_iff_mem (c : Byte) :
    isHexByte c = true ↔ c ∈ ascii "0123456789abcdefABCDEF" := by
  revert c
  decide

set_option maxRecDepth 100000 in
theorem slash_not_hex (c : Byte) (h : isHexByte c = true) : c ≠ 47 := by
  revert c
  decide

/-! ## ValidatePeggyCoin -/

theorem hexRxMatch_iff (a : GoString) :
    hexRxMatch a = true ↔
      ∃ digits : GoString, digits.length = 40 ∧ (∀ c ∈ digits, isHexByte c = true) ∧
        a = ascii "0x" ++ digits := by
  constructor
  · intro h
    unfold hexRxMatch at h
    split at h
    · next rest =>
      simp only [Bool.and_eq_true, beq_iff_eq, List.all_eq_true] at h
      exact ⟨rest, h.1, h.2, rfl⟩
    · exact absurd h (by simp)
  · rintro ⟨digits, hlen, hall, rfl⟩
    show hexRxMatch (48 :: 120 :: digits) = true
    simp only [hexRxMatch, Bool.and_eq_true, beq_iff_eq, List.all_eq_true]
    exact ⟨hlen, hall⟩

theorem ValidateEthAddress_eq_none_iff (a : GoString) :
    ValidateEthAddress a = none ↔ hexRxMatch a = true := by
  constructor
  · intro h
    unfold ValidateEthAddress at h
    split at h
    · exact absurd h (by simp)
    · split at h
      · exact absurd h (by simp)
      · next hm => simpa using hm
  · intro h
    obtain ⟨digits, hlen, _, rfl⟩ := (hexRxMatch_iff a).1 h
    have hl : (ascii "0x" ++ digits).length = 42 := by
      rw [List.length_append, hlen]; rfl
    unfold ValidateEthAddress
    rw [if_neg (by rw [hl]; decide), h]
    simp [hl, ETHContractAddressLen]

theorem Split_peggy_denom (digits : GoString) (hall : ∀ c ∈ digits, isHexByte c = true) :
    Split (ascii "helios/" ++ ascii "0x" ++ digits) = [PeggyDenomPrefix, ascii "0x" ++ digits] := by
  have e : ascii "helios/" ++ ascii "0x" ++ digits
      = PeggyDenomPrefix ++ 47 :: (ascii "0x" ++ digits) := by
    have : ascii "helios/" = PeggyDenomPrefix ++ [47] := by decide
    rw [this]; simp
  have h1 : (47 : Byte) ∉ PeggyDenomPrefix := by decide
  have h2 : (47 : Byte) ∉ ascii "0x" ++ digits := by
    intro hm
    rcases List.mem_append.1 hm with hm | hm
    · exact absurd hm (by decide)
    · exact slash_not_hex 47 (hall 47 hm) rfl
  rw [e, Split, splitByte_append 47 _ _ h1, splitByte_of_not_mem 47 _ h2]

theorem ValidatePeggyCoin_of_peggy_denom (v : Coin) (digits : GoString)
    (hlen : digits.length = 40) (hall : ∀ c ∈ digits, isHexByte c = true)
    (hd : v.Denom = ascii "helios/" ++ ascii "0x" ++ digits) :
    ValidatePeggyCoin v = (ascii "0x" ++ digits, none) := by
  have hv : ValidateEthAddress (ascii "0x" ++ digits) = none :=
    (ValidateEthAddress_eq_none_iff _).2 ((hexRxMatch_iff _).2 ⟨digits, hlen, hall, rfl⟩)
  have hl : v.Denom.length = PeggyDenomLen := by
    rw [hd, List.length_append, List.length_append, hlen]; rfl
  unfold ValidatePeggyCoin
  simp only [hd, Split_peggy_denom digits hall]
  rw [← hd]
  simp [hv, hl]

theorem ValidatePeggyCoin_ok_shape (v : Coin) (h : (ValidatePeggyCoin v).2 = none) :
    ∃ digits : GoString, digits.length = 40 ∧ (∀ c ∈ digits, isHexByte c = true) ∧
      v.Denom = ascii "helios/" ++ ascii "0x" ++ digits := by
  unfold ValidatePeggyCoin at h
  simp only at h
  split at h
  · exact absurd h (by simp)
  · split at h
    · exact absurd h (by simp)
    · next hge hlen2 =>
      split at h
      · exact absurd h (by simp)
      · next hpre =>
        split at h
        · exact absurd h (by simp)
        · next hv =>
          have hlen : (Split v.Denom).length = 2 := not_not.1 hlen2
          obtain ⟨p, c, hpc⟩ : ∃ p c, Split v.Denom = [p, c] := by
            match hs : Split v.Denom with
            | [] => rw [hs] at hlen; simp at hlen
            | [_] => rw [hs] at hlen; simp at hlen
            | [p, c] => exact ⟨p, c, rfl⟩
            | _ :: _ :: _ :: _ => rw [hs] at hlen; simp at hlen
          rw [hpc] at hpre hv
          simp only [List.getD_cons_zero, List.getD_cons_succ, ne_eq, not_not] at hpre hv
          obtain ⟨digits, hl, hall, hc⟩ :=
            (hexRxMatch_iff c).1 ((ValidateEthAddress_eq_none_iff c).1 hv)
          refine ⟨digits, hl, hall, ?_⟩
          have e := splitByte_eq_pair 47 v.Denom p c hpc
          rw [e, hpre, hc]
          have : ascii "helios/" = PeggyDenomPrefix ++ [47] := by decide
          rw [this]; simp

theorem ValidatePeggyCoin_err_empty (v : Coin) (h : (ValidatePeggyCoin v).2 ≠ none) :
    (ValidatePeggyCoin v).1 = [] := by
  unfold ValidatePeggyCoin at h ⊢
  simp only at h ⊢
  split
  · rfl
  · split
    · rfl
    · split
      · rfl
      · split
        · rfl
        · split
          · rfl
          · next hv _ =>
            exfalso
            apply h
            simp only [hv]
            split
            · next hx => exact absurd hx ‹_›
            · rfl

theorem NewIntFromBigInt_eq (i : Int) :
    NewIntFromBigInt i = if 2 ^ 256 ≤ i.natAbs then none else some i := by
  unfold NewIntFromBigInt BitLen MaxBitLen
  have h : Nat.size i.natAbs > 256 ↔ 2 ^ 256 ≤ i.natAbs := by
    rw [gt_iff_lt, Nat.lt_size]
  by_cases h2 : 2 ^ 256 ≤ i.natAbs
  · rw [if_pos (h.2 h2), if_pos h2]
  · rw [if_neg (fun h3 => h2 (h.1 h3)), if_neg h2]


/-! ## The checksummed hex form of an address and its parsing -/

theorem nibble_digit (n : Fin 16) :
    fromHexChar (hextable n.val) = some n.val ∧ isHexByte (hextable n.val) = true ∧
      fromHexChar (hextable n.val - 32) = (if (hextable n.val).val > 57 then some n.val else none) ∧
      ((hextable n.val).val > 57 → isHexByte (hextable n.val - 32) = true) := by
  revert n
  decide

set_option maxRecDepth 100000 in
theorem byte_nibbles (v : Byte) :
    v.val >>> 4 < 16 ∧ v.val &&& 0x0f < 16 ∧
      (Fin.ofNat (((v.val >>> 4) <<< 4) ||| (v.val &&& 0x0f)) : Byte) = v := by
  revert v
  decide

/-- One position of the checksum loop keeps the digit's value. -/
theorem checksum_digit (n : Nat) (hn : n < 16) (P : Prop) [Decidable P] :
    fromHexChar (if (hextable n).val > 57 ∧ P then hextable n - 32 else hextable n) = some n ∧
      isHexByte (if (hextable n).val > 57 ∧ P then hextable n - 32 else hextable n) = true := by
  have h := nibble_digit ⟨n, hn⟩
  simp only at h
  by_cases hc : (hextable n).val > 57 ∧ P
  · rw [if_pos hc]
    refine ⟨?_, h.2.2.2 hc.1⟩
    rw [h.2.2.1, if_pos hc.1]
  · rw [if_neg hc]
    exact ⟨h.1, h.2.1⟩

theorem checksumLoop_hexEncode (hash : List Byte) (bytes : List Byte) (i : Nat) :
    hexDecode (checksumLoop hash i (hexEncode bytes)) = bytes ∧
      (∀ c ∈ checksumLoop hash i (hexEncode bytes), isHexByte c = true) ∧
      (checksumLoop hash i (hexEncode bytes)).length = 2 * bytes.length := by
  induction bytes generalizing i with
  | nil => simp [hexEncode, checksumLoop, hexDecode]
  | cons v rest ih =>
    obtain ⟨ih1, ih2, ih3⟩ := ih (i + 1 + 1)
    obtain ⟨hhi, hlo, hv⟩ := byte_nibbles v
    simp only [hexEncode, checksumLoop]
    have d1 := fun (P : Prop) [Decidable P] => checksum_digit (v.val >>> 4) hhi P
    have d2 := fun (P : Prop) [Decidable P] => checksum_digit (v.val &&& 0x0f) hlo P
    refine ⟨?_, ?_, ?_⟩
    · simp only [hexDecode, (d1 _).1, (d2 _).1, ih1, hv]
    · intro c hc
      simp only [List.mem_cons] at hc
      rcases hc with hc | hc | hc
      · rw [hc]; exact (d1 _).2
      · rw [hc]; exact (d2 _).2
      · exact ih2 c hc
    · simp only [List.length_cons, ih3]; omega

theorem Address.checksumHex_eq (keccak256 : GoString → List Byte) (a : Address) :
    a.checksumHex keccak256
      = ascii "0x" ++ checksumLoop (keccak256 (hexEncode a.bytes)) 2 (hexEncode a.bytes) := by
  unfold Address.checksumHex Address.hex
  have h1 : (ascii "0x" ++ hexEncode a.bytes).drop 2 = hexEncode a.bytes := rfl
  have h2 : (ascii "0x" ++ hexEncode a.bytes).take 2 = ascii "0x" := rfl
  simp only [h1, h2]

theorem BytesToAddress_bytes (a : Address) : BytesToAddress a.bytes = a := by
  obtain ⟨bytes, hsize⟩ := a
  unfold BytesToAddress
  simp only [Address.mk.injEq]
  rw [if_neg (by omega)]
  simp [hsize]

theorem FromHex_0x (digits : GoString) (h : digits.length % 2 = 0) :
    FromHex (ascii "0x" ++ digits) = hexDecode digits := by
  unfold FromHex
  have h1 : has0xPrefix (ascii "0x" ++ digits) = true := rfl
  have h2 : (ascii "0x" ++ digits).drop 2 = digits := rfl
  simp only [h1, h2, if_true]
  rw [if_neg (by omega)]

theorem HexToAddress_checksumHex (keccak256 : GoString → List Byte) (a : Address) :
    HexToAddress (a.checksumHex keccak256) = a := by
  obtain ⟨h1, _, h3⟩ := checksumLoop_hexEncode (keccak256 (hexEncode a.bytes)) a.bytes 2
  rw [Address.checksumHex_eq, HexToAddress, FromHex_0x _ (by rw [h3]; omega), h1,
    BytesToAddress_bytes]

set_option maxRecDepth 100000 in
theorem isDenomByte_of_isHexByte (c : Byte) (h : isHexByte c = true) : isDenomByte c = true := by
  revert c
  decide

set_option maxRecDepth 100000 in
theorem ValidateDenom_peggy (digits : GoString) (hlen : digits.length = 40)
    (hall : ∀ c ∈ digits, isHexByte c = true) :
    ValidateDenom (PeggyDenomPrefix ++ ascii "/" ++ (ascii "0x" ++ digits)) = true := by
  have e : PeggyDenomPrefix ++ ascii "/" ++ (ascii "0x" ++ digits)
      = 104 :: (ascii "elios/0x" ++ digits) := rfl
  rw [e]
  simp only [ValidateDenom, Bool.and_eq_true, decide_eq_true_eq, List.all_eq_true,
    List.length_append, hlen]
  refine ⟨⟨⟨by decide, by decide⟩, by decide⟩, ?_⟩
  intro c hc
  rcases List.mem_append.1 hc with hc | hc
  · have hfix : ∀ b ∈ ascii "elios/0x", isDenomByte b = true := by decide
    exact hfix c hc
  · exact isDenomByte_of_isHexByte c (hall c hc)

theorem PeggyCoin_of_large (keccak256 : GoString → List Byte) (e : ERC20Token)
    (h : 2 ^ 256 ≤ e.Amount.natAbs) : e.PeggyCoin keccak256 = none := by
  unfold ERC20Token.PeggyCoin
  rw [NewIntFromBigInt_eq, if_pos h]

/-! ## Decimals -/

theorem ten_zpow_pos (e : Int) : (0 : ℚ) < (10 : ℚ) ^ e := zpow_pos (by norm_num) e

theorem Decimal.rescale_down (d : Decimal) (exp : Int) (h : exp < d.exp) :
    d.rescale exp = { value := d.value * 10 ^ (exp - d.exp).natAbs, exp := exp } := by
  unfold Decimal.rescale
  rw [if_neg (by omega)]
  simp only
  rw [if_neg (by omega)]

theorem Decimal.toRat_rescale_down (d : Decimal) (exp : Int) (h : exp < d.exp) :
    (d.rescale exp).toRat = d.toRat := by
  rw [Decimal.rescale_down d exp h]
  unfold Decimal.toRat
  simp only
  have hk : d.exp = ((exp - d.exp).natAbs : Int) + exp := by omega
  have h10 : (10 : ℚ) ≠ 0 := by norm_num
  conv_rhs => rw [hk, zpow_add₀ h10, zpow_natCast]
  push_cast
  ring

theorem Decimal.toRat_lt_of_exp_eq (d d2 : Decimal) (h : d.exp = d2.exp) :
    d.toRat < d2.toRat ↔ d.value < d2.value := by
  unfold Decimal.toRat
  rw [h, mul_lt_mul_right (ten_zpow_pos d2.exp)]
  exact Int.cast_lt

theorem Decimal.Cmp_eq_neg_one_iff (d d2 : Decimal) : d.Cmp d2 = -1 ↔ d.toRat < d2.toRat := by
  have key : ∀ a b : Decimal, a.exp = b.exp →
      ((if a.value < b.value then (-1 : Int) else if a.value = b.value then 0 else 1) = -1 ↔
        a.toRat < b.toRat) := by
    intro a b hab
    rw [Decimal.toRat_lt_of_exp_eq a b hab]
    constructor
    · intro h
      by_contra hn
      rw [if_neg hn] at h
      split at h <;> omega
    · intro h
      rw [if_pos h]
  unfold Decimal.Cmp
  by_cases he : d.exp = d2.exp
  · rw [if_pos he]
    exact key d d2 he
  · rw [if_neg he]
    simp only
    unfold Decimal.RescalePair
    rw [if_neg he]
    simp only
    by_cases hm : min d.exp d2.exp ≠ d.exp
    · rw [if_pos hm]
      have hlt : min d.exp d2.exp < d.exp := lt_of_le_of_ne (min_le_left _ _) hm
      have hmin : min d.exp d2.exp = d2.exp := by omega
      have e := key (d.rescale (min d.exp d2.exp)) d2 (by
        rw [Decimal.rescale_down d _ hlt]; exact hmin)
      rw [Decimal.toRat_rescale_down d _ hlt] at e
      exact e
    · rw [if_neg hm]
      have hmin : min d.exp d2.exp = d.exp := not_not.1 hm
      have hlt : d.exp < d2.exp := by omega
      rw [hmin]
      have e := key d (d2.rescale d.exp) (by rw [Decimal.rescale_down d2 _ hlt])
      rw [Decimal.toRat_rescale_down d2 _ hlt] at e
      exact e

theorem Decimal.LessThan_iff (d d2 : Decimal) : d.LessThan d2 = true ↔ d.toRat < d2.toRat := by
  unfold Decimal.LessThan
  rw [decide_eq_true_iff]
  exact Decimal.Cmp_eq_neg_one_iff d d2

theorem Decimal.toRat_fee_mul (fees : Int) (p : Decimal) :
    ((Decimal.NewFromBigInt fees (-18)).Mul p).toRat
      = (fees : ℚ) * (10 : ℚ) ^ (-18 : Int) * p.toRat := by
  unfold Decimal.Mul Decimal.NewFromBigInt Decimal.toRat
  simp only
  rw [zpow_add₀ (by norm_num : (10 : ℚ) ≠ 0)]
  push_cast
  ring

/-! ## The batch requester -/

theorem queriedTokens_append (a b : List Event) :
    queriedTokens (a ++ b) = queriedTokens a ++ queriedTokens b := by
  induction a with
  | nil => rfl
  | cons e rest ih => cases e <;> simp [queriedTokens, ih]

theorem requestedDenoms_append (a b : List Event) :
    requestedDenoms (a ++ b) = requestedDenoms a ++ requestedDenoms b := by
  induction a with
  | nil => rfl
  | cons e rest ih => cases e <;> simp [requestedDenoms, ih]

theorem checkFeeThreshold_of_price {W : Type} (l : batchRequestLoop) (feed : PriceFeed W)
    (tokenAddr : Address) (fees : Int) (w w1 : W) (p : Float64)
    (hF : l.minBatchFeeUSD.isZero = false)
    (hq : feed.QueryUSDPrice tokenAddr w = ((p, none), w1)) :
    l.checkFeeThreshold feed tokenAddr fees w
      = (decide (¬ ((fees : ℚ) * (10 : ℚ) ^ (-18 : Int) * p.dec.toRat
            < l.minBatchFeeUSD.dec.toRat)), w1, [Event.queryUSDPrice tokenAddr]) := by
  unfold batchRequestLoop.checkFeeThreshold
  simp only [hF, hq, Bool.false_eq_true, if_false, Decimal.NewFromFloat]
  by_cases hlt : (fees : ℚ) * (10 : ℚ) ^ (-18 : Int) * p.dec.toRat < l.minBatchFeeUSD.dec.toRat
  · have h := (Decimal.LessThan_iff ((Decimal.NewFromBigInt fees (-18)).Mul p.dec)
      l.minBatchFeeUSD.dec).2 (by rw [Decimal.toRat_fee_mul]; exact hlt)
    rw [if_pos h, decide_eq_false (not_not.2 hlt)]
  · have h : ¬ ((Decimal.NewFromBigInt fees (-18)).Mul p.dec).LessThan l.minBatchFeeUSD.dec
        = true := by
      intro h
      rw [Decimal.LessThan_iff, Decimal.toRat_fee_mul] at h
      exact hlt h
    rw [if_neg h, decide_eq_true hlt]

theorem checkFeeThreshold_of_error {W : Type} (l : batchRequestLoop) (feed : PriceFeed W)
    (tokenAddr : Address) (fees : Int) (w w1 : W) (x : Float64) (err : GoError)
    (hF : l.minBatchFeeUSD.isZero = false)
    (hq : feed.QueryUSDPrice tokenAddr w = ((x, some err), w1)) :
    l.checkFeeThreshold feed tokenAddr fees w = (false, w1, [Event.queryUSDPrice tokenAddr]) := by
  unfold batchRequestLoop.checkFeeThreshold
  simp only [hF, hq, Bool.false_eq_true, if_false]

theorem checkFeeThreshold_queries_once {W : Type} (l : batchRequestLoop) (feed : PriceFeed W)
    (tokenAddr : Address) (fees : Int) (w : W) (hF : l.minBatchFeeUSD.isZero = false) :
    (l.checkFeeThreshold feed tokenAddr fees w).2.2 = [Event.queryUSDPrice tokenAddr] := by
  unfold batchRequestLoop.checkFeeThreshold
  simp only [hF, Bool.false_eq_true, if_false]
  split
  · rfl
  · split <;> rfl

theorem requestBatch_queriedTokens {W : Type} (l : batchRequestLoop)
    (PeggyDenomString : Address → GoString) (injective : InjectiveNetwork W)
    (feed : PriceFeed W) (fee : BatchFees) (w : W) (hF : l.minBatchFeeUSD.isZero = false) :
    queriedTokens (l.requestBatch PeggyDenomString injective feed fee w).2.2
      = [HexToAddress fee.Token] := by
  have h := checkFeeThreshold_queries_once l feed (HexToAddress fee.Token) fee.TotalFees w hF
  unfold batchRequestLoop.requestBatch
  simp only
  split
  · next b w1 evs heq =>
    rw [heq] at h
    simp only at h
    simp [h, queriedTokens]
  · next b w1 evs heq =>
    rw [heq] at h
    simp only at h
    simp [h, queriedTokens]

theorem requestBatches_queriedTokens {W : Type} (l : batchRequestLoop)
    (PeggyDenomString : Address → GoString) (injective : InjectiveNetwork W)
    (feed : PriceFeed W) (fees : List BatchFees) (w : W)
    (hF : l.minBatchFeeUSD.isZero = false) :
    queriedTokens (l.requestBatches PeggyDenomString injective feed fees w).2.2
      = fees.map fun fee => HexToAddress fee.Token := by
  induction fees generalizing w with
  | nil => rfl
  | cons fee rest ih =>
    simp only [batchRequestLoop.requestBatches, queriedTokens_append, List.map_cons]
    rw [requestBatch_queriedTokens l PeggyDenomString injective feed fee w hF, ih]
    rfl

theorem requestBatches_append {W : Type} (l : batchRequestLoop)
    (PeggyDenomString : Address → GoString) (injective : InjectiveNetwork W)
    (feed : PriceFeed W) (pre post : List BatchFees) (w : W) :
    l.requestBatches PeggyDenomString injective feed (pre ++ post) w
      = ((), (l.requestBatches PeggyDenomString injective feed post
            (l.requestBatches PeggyDenomString injective feed pre w).2.1).2.1,
          (l.requestBatches PeggyDenomString injective feed pre w).2.2 ++
            (l.requestBatches PeggyDenomString injective feed post
              (l.requestBatches PeggyDenomString injective feed pre w).2.1).2.2) := by
  induction pre generalizing w with
  | nil => simp [batchRequestLoop.requestBatches]
  | cons fee rest ih =>
    show l.requestBatches PeggyDenomString injective feed (fee :: (rest ++ post)) w = _
    simp only [batchRequestLoop.requestBatches, ih, List.append_assoc]

/-! ## The retrier -/

theorem retry_of_first_ok {σ : Type} (fn : Act σ (Option GoError)) (m : Nat) (hm : 0 < m)
    (s s1 : σ) (evs : List Event) (h : fn s = (none, s1, evs)) :
    retry m fn s = (none, s1, evs) := by
  obtain ⟨n, rfl⟩ : ∃ n, m = n + 1 := ⟨m - 1, by omega⟩
  simp only [retry, retryFrom, h]

/-- The runs of the retrier on a thunk that performs one broadcast `mk err` per
attempt: some failures and then a success, or as many failures as attempts. -/
theorem retryFrom_send {σ : Type} (fn : Act σ (Option GoError)) (mk : Option GoError → Event)
    (h : ∀ s, (fn s).2.2 = [mk (fn s).1]) (n : Nat) (last : Option GoError) (s : σ) :
    (∃ errs : List GoError, (retryFrom fn n last s).1 = none ∧
        (retryFrom fn n last s).2.2 = errs.map (fun e => mk (some e)) ++ [mk none] ∧
        errs.length < n) ∨
    (∃ errs : List GoError,
        (retryFrom fn n last s).2.2 = errs.map (fun e => mk (some e)) ∧ errs.length = n ∧
        (n = 0 → (retryFrom fn n last s).1 = last) ∧
        (0 < n → ∃ e, (retryFrom fn n last s).1 = some e)) := by
  induction n generalizing last s with
  | zero =>
    right
    exact ⟨[], rfl, rfl, fun _ => rfl, fun h0 => absurd h0 (by omega)⟩
  | succ n ih =>
    have hs := h s
    rcases hfn : fn s with ⟨r, s1, evs⟩
    rw [hfn] at hs
    simp only at hs
    cases r with
    | none =>
      left
      refine ⟨[], ?_, ?_, by simp⟩
      · simp only [retryFrom, hfn]
      · simp only [retryFrom, hfn, hs, List.map_nil, List.nil_append]
    | some e =>
      have e1 : retryFrom fn (n + 1) last s
          = ((retryFrom fn n (some e) s1).1, (retryFrom fn n (some e) s1).2.1,
              evs ++ (retryFrom fn n (some e) s1).2.2) := by
        simp only [retryFrom, hfn]
      rw [e1, hs]
      rcases ih (some e) s1 with ⟨errs, h1, h2, h3⟩ | ⟨errs, h2, h3, h4, h5⟩
      · left
        refine ⟨e :: errs, h1, ?_, by simp only [List.length_cons]; omega⟩
        simp only [h2, List.map_cons, List.cons_append, List.nil_append]
      · right
        refine ⟨e :: errs, ?_, by simp only [List.length_cons]; omega, fun h0 => by omega, ?_⟩
        · simp only [h2, List.map_cons, List.cons_append, List.nil_append]
        · intro _
          by_cases hn : n = 0
          · exact ⟨e, h4 hn⟩
          · exact h5 (by omega)

/-- The retrier with at least one attempt on a one-broadcast thunk: failures
then a success, or failures only and the error of one of them. -/
theorem retry_send {σ : Type} (fn : Act σ (Option GoError)) (mk : Option GoError → Event)
    (h : ∀ s, (fn s).2.2 = [mk (fn s).1]) (m : Nat) (hm : 0 < m) (s : σ) :
    (∃ errs : List GoError, (retry m fn s).1 = none ∧
        (retry m fn s).2.2 = errs.map (fun e => mk (some e)) ++ [mk none]) ∨
    (∃ (errs : List GoError) (e : GoError), (retry m fn s).1 = some e ∧
        (retry m fn s).2.2 = errs.map (fun e => mk (some e)) ∧ errs ≠ []) := by
  unfold retry
  rcases retryFrom_send fn mk h m none s with ⟨errs, h1, h2, _⟩ | ⟨errs, h2, h3, _, h5⟩
  · exact Or.inl ⟨errs, h1, h2⟩
  · obtain ⟨e, he⟩ := h5 hm
    refine Or.inr ⟨errs, e, he, h2, ?_⟩
    intro hnil
    rw [hnil] at h3
    simp at h3
    omega

theorem retry_zero {σ : Type} (fn : Act σ (Option GoError)) (s : σ) :
    retry 0 fn s = (none, s, []) := rfl

/-! ## Traces of the signer -/

theorem valsetConfirms_append (a b : List Event) :
    valsetConfirms (a ++ b) = valsetConfirms a ++ valsetConfirms b := by
  induction a with
  | nil => rfl
  | cons e rest ih => cases e <;> simp [valsetConfirms, ih]

theorem confirmedValsets_append (a b : List Event) :
    confirmedValsets (a ++ b) = confirmedValsets a ++ confirmedValsets b := by
  induction a with
  | nil => rfl
  | cons e rest ih =>
    cases e with
    | sendValsetConfirm a p v r => cases r <;> simp [confirmedValsets, ih]
    | _ => simp [confirmedValsets, ih]

theorem allBroadcastsSucceed_append (a b : List Event) :
    allBroadcastsSucceed (a ++ b) = (allBroadcastsSucceed a && allBroadcastsSucceed b) := by
  simp [allBroadcastsSucceed, List.all_append]

theorem confirmedValsets_failures (a : Address) (p : Hash) (v : Valset) (errs : List GoError) :
    confirmedValsets (errs.map fun e => Event.sendValsetConfirm a p v (some e)) = [] := by
  induction errs with
  | nil => rfl
  | cons e rest ih => simp [confirmedValsets, ih]

theorem allBroadcastsSucceed_failures (mk : Option GoError → Event)
    (hbad : ∀ e, (mk (some e)).broadcastOk = false) (errs : List GoError) (rest : List Event)
    (h : allBroadcastsSucceed (errs.map (fun e => mk (some e)) ++ rest) = true) : errs = [] := by
  cases errs with
  | nil => rfl
  | cons e es =>
    simp only [allBroadcastsSucceed, List.map_cons, List.cons_append, List.all_cons, hbad,
      Bool.false_and] at h
    exact absurd h (by simp)

theorem sendValsetConfirmFn_event {W : Type} (l : signer W) (vs : Valset) (w : W) :
    (l.sendValsetConfirmFn vs w).2.2
      = [Event.sendValsetConfirm l.cfg.EthereumAddr l.peggyID vs (l.sendValsetConfirmFn vs w).1] :=
  rfl

theorem sendBatchConfirmFn_event {W : Type} (l : signer W) (batch : OutgoingTxBatch) (w : W) :
    (l.sendBatchConfirmFn batch w).2.2
      = [Event.sendBatchConfirm l.cfg.EthereumAddr l.peggyID batch
          (l.sendBatchConfirmFn batch w).1] :=
  rfl

/-! ## The loop over the valsets -/

theorem confirmValsets_cons {W : Type} (l : signer W) (vs : Valset) (rest : List Valset) (w : W) :
    l.confirmValsets (vs :: rest) w
      = match (retry l.maxAttempts (l.sendValsetConfirmFn vs) w).1 with
        | some err => (some err, (retry l.maxAttempts (l.sendValsetConfirmFn vs) w).2.1,
            (retry l.maxAttempts (l.sendValsetConfirmFn vs) w).2.2)
        | none =>
          ((l.confirmValsets rest (retry l.maxAttempts (l.sendValsetConfirmFn vs) w).2.1).1,
            (l.confirmValsets rest (retry l.maxAttempts (l.sendValsetConfirmFn vs) w).2.1).2.1,
            (retry l.maxAttempts (l.sendValsetConfirmFn vs) w).2.2 ++
              (l.confirmValsets rest
                (retry l.maxAttempts (l.sendValsetConfirmFn vs) w).2.1).2.2) := by
  rw [signer.confirmValsets]
  rcases retry l.maxAttempts (l.sendValsetConfirmFn vs) w with ⟨r, w1, evs⟩
  cases r <;> rfl

theorem confirmValsets_events {W : Type} (l : signer W) (L : List Valset) (w : W) :
    ∀ ev ∈ (l.confirmValsets L w).2.2, ∃ v ∈ L, ∃ r,
      ev = Event.sendValsetConfirm l.cfg.EthereumAddr l.peggyID v r := by
  induction L generalizing w with
  | nil => intro ev hev; simp [signer.confirmValsets] at hev
  | cons vs rest ih =>
    intro ev hev
    rw [confirmValsets_cons] at hev
    have hsend : ∀ ev ∈ (retry l.maxAttempts (l.sendValsetConfirmFn vs) w).2.2, ∃ r,
        ev = Event.sendValsetConfirm l.cfg.EthereumAddr l.peggyID vs r := by
      intro ev hev
      by_cases hm : 0 < l.maxAttempts
      · rcases retry_send _ _ (sendValsetConfirmFn_event l vs) l.maxAttempts hm w with
          ⟨errs, _, h2⟩ | ⟨errs, e, _, h2, _⟩
        · rw [h2] at hev
          simp only [List.mem_append, List.mem_map, List.mem_singleton] at hev
          rcases hev with ⟨e, _, he⟩ | he
          · exact ⟨_, he.symm⟩
          · exact ⟨_, he⟩
        · rw [h2] at hev
          simp only [List.mem_map] at hev
          obtain ⟨e, _, he⟩ := hev
          exact ⟨_, he.symm⟩
      · have h0 : l.maxAttempts = 0 := by omega
        rw [h0, retry_zero] at hev
        simp at hev
    split at hev
    · obtain ⟨r, hr⟩ := hsend ev hev
      exact ⟨vs, by simp, r, hr⟩
    · simp only [List.mem_append] at hev
      rcases hev with hev | hev
      · obtain ⟨r, hr⟩ := hsend ev hev
        exact ⟨vs, by simp, r, hr⟩
      · obtain ⟨v, hv, r, hr⟩ := ih _ ev hev
        exact ⟨v, List.mem_cons_of_mem _ hv, r, hr⟩

theorem confirmValsets_ok {W : Type} (l : signer W) (hm : 0 < l.maxAttempts) (L : List Valset)
    (w : W) (h : (l.confirmValsets L w).1 = none) :
    confirmedValsets (l.confirmValsets L w).2.2
      = L.map fun vs => (l.cfg.EthereumAddr, l.peggyID, vs) := by
  induction L generalizing w with
  | nil => rfl
  | cons vs rest ih =>
    rw [confirmValsets_cons] at h ⊢
    rcases retry_send _ _ (sendValsetConfirmFn_event l vs) l.maxAttempts hm w with
      ⟨errs, h1, h2⟩ | ⟨errs, e, h1, _, _⟩
    · rw [h1] at h ⊢
      simp only at h ⊢
      rw [confirmedValsets_append, ih _ h, h2, confirmedValsets_append,
        confirmedValsets_failures]
      rfl
    · rw [h1] at h
      exact absurd h (by simp)

theorem confirmValsets_all_ok {W : Type} (l : signer W) (hm : 0 < l.maxAttempts)
    (L : List Valset) (w : W) (h : allBroadcastsSucceed (l.confirmValsets L w).2.2 = true) :
    (l.confirmValsets L w).1 = none ∧
      valsetConfirms (l.confirmValsets L w).2.2
        = L.map fun vs => (l.cfg.EthereumAddr, l.peggyID, vs, none) := by
  induction L generalizing w with
  | nil => exact ⟨rfl, rfl⟩
  | cons vs rest ih =>
    rw [confirmValsets_cons] at h ⊢
    rcases retry_send _ _ (sendValsetConfirmFn_event l vs) l.maxAttempts hm w with
      ⟨errs, h1, h2⟩ | ⟨errs, e, h1, h2, h3⟩
    · rw [h1] at h ⊢
      simp only at h ⊢
      rw [allBroadcastsSucceed_append, Bool.and_eq_true] at h
      have hnil := allBroadcastsSucceed_failures
        (Event.sendValsetConfirm l.cfg.EthereumAddr l.peggyID vs) (fun _ => rfl) errs _
        (h2 ▸ h.1)
      rw [hnil] at h2
      obtain ⟨i1, i2⟩ := ih _ h.2
      refine ⟨i1, ?_⟩
      rw [valsetConfirms_append, i2, h2]
      rfl
    · rw [h1] at h
      simp only at h
      rw [h2] at h
      have hnil := allBroadcastsSucceed_failures
        (Event.sendValsetConfirm l.cfg.EthereumAddr l.peggyID vs) (fun _ => rfl) errs []
        (by rw [List.append_nil]; exact h)
      exact absurd hnil h3

/-! ## The two phases of the signer -/

theorem signValidatorSets_eq {W : Type} (l : signer W) (hm : 0 < l.maxAttempts) (w w1 : W)
    (L : List Valset) (e0 : Option GoError)
    (hq : l.helios.OldestUnsignedValsets l.cfg.CosmosAddr w = ((L, e0), w1)) :
    l.signValidatorSets w
      = ((l.confirmValsets L w1).1, (l.confirmValsets L w1).2.1,
          [Event.oldestUnsignedValsets l.cfg.CosmosAddr] ++ (l.confirmValsets L w1).2.2) := by
  have hfn : l.getValsetsFn ([], w)
      = (none, (L, w1), [Event.oldestUnsignedValsets l.cfg.CosmosAddr]) := by
    simp only [signer.getValsetsFn, hq]
  unfold signer.signValidatorSets
  simp only [retry_of_first_ok l.getValsetsFn l.maxAttempts hm _ _ _ hfn]
  cases L with
  | nil => simp [signer.confirmValsets]
  | cons vs rest => simp

theorem signNewBatch_none {W : Type} (l : signer W) (hm : 0 < l.maxAttempts) (w w2 : W)
    (e2 : Option GoError)
    (hq : l.helios.OldestUnsignedTransactionBatch l.cfg.CosmosAddr w = ((none, e2), w2)) :
    l.signNewBatch w = (none, w2, [Event.oldestUnsignedTransactionBatch l.cfg.CosmosAddr]) := by
  have hfn : l.getBatchFn (none, w)
      = (none, (none, w2), [Event.oldestUnsignedTransactionBatch l.cfg.CosmosAddr]) := by
    simp only [signer.getBatchFn, hq]
  unfold signer.signNewBatch
  simp only [retry_of_first_ok l.getBatchFn l.maxAttempts hm _ _ _ hfn]

theorem signNewBatch_some {W : Type} (l : signer W) (hm : 0 < l.maxAttempts) (w w2 : W)
    (batch : OutgoingTxBatch) (e2 : Option GoError)
    (hq : l.helios.OldestUnsignedTransactionBatch l.cfg.CosmosAddr w = ((some batch, e2), w2)) :
    l.signNewBatch w
      = ((retry l.maxAttempts (l.sendBatchConfirmFn batch) w2).1,
          (retry l.maxAttempts (l.sendBatchConfirmFn batch) w2).2.1,
          [Event.oldestUnsignedTransactionBatch l.cfg.CosmosAddr] ++
            (retry l.maxAttempts (l.sendBatchConfirmFn batch) w2).2.2) := by
  have hfn : l.getBatchFn (none, w)
      = (none, (some batch, w2), [Event.oldestUnsignedTransactionBatch l.cfg.CosmosAddr]) := by
    simp only [signer.getBatchFn, hq]
  unfold signer.signNewBatch
  simp only [retry_of_first_ok l.getBatchFn l.maxAttempts hm _ _ _ hfn]

/-- The trace of phase 2 holds no valset confirmation; when all of its
broadcasts succeed, phase 2 returns no error. -/
theorem signNewBatch_trace {W : Type} (l : signer W) (hm : 0 < l.maxAttempts) (w : W) :
    valsetConfirms (l.signNewBatch w).2.2 = [] ∧ confirmedValsets (l.signNewBatch w).2.2 = [] ∧
      (allBroadcastsSucceed (l.signNewBatch w).2.2 = true → (l.signNewBatch w).1 = none) := by
  rcases hq : l.helios.OldestUnsignedTransactionBatch l.cfg.CosmosAddr w with ⟨⟨ob, e2⟩, w2⟩
  cases ob with
  | none =>
    rw [signNewBatch_none l hm w w2 e2 hq]
    exact ⟨rfl, rfl, fun _ => rfl⟩
  | some batch =>
    rw [signNewBatch_some l hm w w2 batch e2 hq]
    simp only
    have hfail : ∀ errs : List GoError,
        valsetConfirms (errs.map fun e =>
          Event.sendBatchConfirm l.cfg.EthereumAddr l.peggyID batch (some e)) = [] ∧
        confirmedValsets (errs.map fun e =>
          Event.sendBatchConfirm l.cfg.EthereumAddr l.peggyID batch (some e)) = [] := by
      intro errs
      induction errs with
      | nil => exact ⟨rfl, rfl⟩
      | cons e rest ih => simp [valsetConfirms, confirmedValsets, ih]
    rcases retry_send _ _ (sendBatchConfirmFn_event l batch) l.maxAttempts hm w2 with
      ⟨errs, h1, h2⟩ | ⟨errs, e, h1, h2, h3⟩
    · rw [h1, h2]
      refine ⟨?_, ?_, fun _ => rfl⟩
      · simp [valsetConfirms, valsetConfirms_append, (hfail errs).1]
      · simp [confirmedValsets, confirmedValsets_append, (hfail errs).2]
    · rw [h1, h2]
      refine ⟨?_, ?_, ?_⟩
      · simp [valsetConfirms, (hfail errs).1]
      · simp [confirmedValsets, (hfail errs).2]
      · intro hall
        rw [allBroadcastsSucceed_append, Bool.and_eq_true] at hall
        have hnil := allBroadcastsSucceed_failures
          (Event.sendBatchConfirm l.cfg.EthereumAddr l.peggyID batch) (fun _ => rfl) errs []
          (by rw [List.append_nil]; exact hall.2)
        exact absurd hnil h3

theorem sign_eq {W : Type} (l : signer W) (w : W) :
    l.sign w
      = match (l.signValidatorSets w).1 with
        | some err => (some err, (l.signValidatorSets w).2.1, (l.signValidatorSets w).2.2)
        | none =>
          ((l.signNewBatch (l.signValidatorSets w).2.1).1,
            (l.signNewBatch (l.signValidatorSets w).2.1).2.1,
            (l.signValidatorSets w).2.2 ++ (l.signNewBatch (l.signValidatorSets w).2.1).2.2) := by
  unfold signer.sign
  rcases l.signValidatorSets w with ⟨r, w1, evs⟩
  cases r with
  | some err => rfl
  | none =>
    simp only
    rcases l.signNewBatch w1 with ⟨r2, w2, evs2⟩
    cases r2 <;> rfl

theorem confirmValsets_append_failure {W : Type} (l : signer W) (pre post : List Valset)
    (vs : Valset) (w1 w2 w3 : W) (evs1 evs2 : List Event) (err : GoError)
    (hpre : l.confirmValsets pre w1 = (none, w2, evs1))
    (hsend : retry l.maxAttempts (l.sendValsetConfirmFn vs) w2 = (some err, w3, evs2)) :
    l.confirmValsets (pre ++ vs :: post) w1 = (some err, w3, evs1 ++ evs2) := by
  induction pre generalizing w1 evs1 with
  | nil =>
    simp only [signer.confirmValsets, Prod.mk.injEq, true_and] at hpre
    obtain ⟨rfl, rfl⟩ := hpre
    rw [List.nil_append, confirmValsets_cons, hsend]
    rfl
  | cons v rest ih =>
    rw [confirmValsets_cons] at hpre
    show l.confirmValsets (v :: (rest ++ vs :: post)) w1 = _
    rw [confirmValsets_cons]
    rcases hr : (retry l.maxAttempts (l.sendValsetConfirmFn v) w1).1 with _ | e
    · rw [hr] at hpre
      simp only [Prod.mk.injEq] at hpre ⊢
      obtain ⟨h1, h2, h3⟩ := hpre
      have hrest := ih _ _ (Prod.ext h1 (Prod.ext h2 rfl))
      rw [hrest, ← h3]
      simp
    · rw [hr] at hpre
      simp at hpre

/-! ## The trace of the signer is what the chain did -/

theorem replay_append {W : Type} (helios : HeliosNetwork W) (a b : List Event) (w : W) :
    replay helios (a ++ b) w = (replay helios a w).bind (replay helios b) := by
  induction a generalizing w with
  | nil => rfl
  | cons e rest ih =>
    cases e with
    | oldestUnsignedValsets addr =>
      rw [List.cons_append]
      simp only [replay]
      exact ih _
    | oldestUnsignedTransactionBatch addr =>
      rw [List.cons_append]
      simp only [replay]
      exact ih _
    | sendValsetConfirm a p v r =>
      rw [List.cons_append]
      simp only [replay]
      by_cases hans : (helios.SendValsetConfirm a p v w).1 = r
      · rw [if_pos hans, if_pos hans]
        exact ih _
      · rw [if_neg hans, if_neg hans]
        rfl
    | sendBatchConfirm a p v r =>
      rw [List.cons_append]
      simp only [replay]
      by_cases hans : (helios.SendBatchConfirm a p v w).1 = r
      · rw [if_pos hans, if_pos hans]
        exact ih _
      · rw [if_neg hans, if_neg hans]
        rfl
    | unbatchedTokenFees => rfl
    | queryUSDPrice t => rfl
    | sendRequestBatch d => rfl

theorem retryFrom_replay {W σ : Type} (helios : HeliosNetwork W) (world : σ → W)
    (fn : Act σ (Option GoError))
    (h : ∀ s, replay helios (fn s).2.2 (world s) = some (world (fn s).2.1))
    (n : Nat) (last : Option GoError) (s : σ) :
    replay helios (retryFrom fn n last s).2.2 (world s)
      = some (world (retryFrom fn n last s).2.1) := by
  induction n generalizing last s with
  | zero => rfl
  | succ n ih =>
    have hs := h s
    rcases hfn : fn s with ⟨r, s1, evs⟩
    rw [hfn] at hs
    simp only at hs
    cases r with
    | none => simp only [retryFrom, hfn, hs]
    | some e =>
      simp only [retryFrom, hfn]
      rw [replay_append, hs]
      exact ih (some e) s1

theorem retry_replay {W : Type} (helios : HeliosNetwork W) (fn : Act W (Option GoError))
    (h : ∀ w, replay helios (fn w).2.2 w = some (fn w).2.1) (m : Nat) (w : W) :
    replay helios (retry m fn w).2.2 w = some (retry m fn w).2.1 :=
  retryFrom_replay helios id fn h m none w

theorem sendValsetConfirmFn_replay {W : Type} (l : signer W) (vs : Valset) (w : W) :
    replay l.helios (l.sendValsetConfirmFn vs w).2.2 w = some (l.sendValsetConfirmFn vs w).2.1 := by
  simp only [signer.sendValsetConfirmFn, replay, if_true]

theorem sendBatchConfirmFn_replay {W : Type} (l : signer W) (batch : OutgoingTxBatch) (w : W) :
    replay l.helios (l.sendBatchConfirmFn batch w).2.2 w
      = some (l.sendBatchConfirmFn batch w).2.1 := by
  simp only [signer.sendBatchConfirmFn, replay, if_true]

theorem confirmValsets_replay {W : Type} (l : signer W) (L : List Valset) (w : W) :
    replay l.helios (l.confirmValsets L w).2.2 w = some (l.confirmValsets L w).2.1 := by
  induction L generalizing w with
  | nil => rfl
  | cons vs rest ih =>
    have hr := retry_replay l.helios (l.sendValsetConfirmFn vs)
      (sendValsetConfirmFn_replay l vs) l.maxAttempts w
    rw [confirmValsets_cons]
    rcases hres : (retry l.maxAttempts (l.sendValsetConfirmFn vs) w).1 with _ | e
    · simp only
      rw [replay_append, hr]
      exact ih _
    · exact hr

theorem signValidatorSets_replay {W : Type} (l : signer W) (w : W) :
    replay l.helios (l.signValidatorSets w).2.2 w = some (l.signValidatorSets w).2.1 := by
  have hr := retryFrom_replay l.helios (fun s : List Valset × W => s.2) l.getValsetsFn
    (fun s => rfl) l.maxAttempts none ([], w)
  unfold signer.signValidatorSets
  simp only
  rcases hres : retry l.maxAttempts l.getValsetsFn ([], w) with ⟨r, ⟨valsets, w1⟩, evs⟩
  have hr2 : replay l.helios evs w = some w1 := by
    have : retryFrom l.getValsetsFn l.maxAttempts none ([], w) = (r, (valsets, w1), evs) := hres
    rw [this] at hr
    exact hr
  cases r with
  | some err => exact hr2
  | none =>
    simp only
    split
    · exact hr2
    · simp only
      rw [replay_append, hr2]
      exact confirmValsets_replay l valsets w1

theorem signNewBatch_replay {W : Type} (l : signer W) (w : W) :
    replay l.helios (l.signNewBatch w).2.2 w = some (l.signNewBatch w).2.1 := by
  have hr := retryFrom_replay l.helios (fun s : Option OutgoingTxBatch × W => s.2) l.getBatchFn
    (fun s => rfl) l.maxAttempts none (none, w)
  unfold signer.signNewBatch
  simp only
  rcases hres : retry l.maxAttempts l.getBatchFn (none, w) with ⟨r, ⟨ob, w1⟩, evs⟩
  have hr2 : replay l.helios evs w = some w1 := by
    have : retryFrom l.getBatchFn l.maxAttempts none (none, w) = (r, (ob, w1), evs) := hres
    rw [this] at hr
    exact hr
  cases r with
  | some err => exact hr2
  | none =>
    cases ob with
    | none => exact hr2
    | some batch =>
      simp only
      rw [replay_append, hr2]
      exact retry_replay l.helios (l.sendBatchConfirmFn batch)
        (sendBatchConfirmFn_replay l batch) l.maxAttempts w1

theorem sign_replay {W : Type} (l : signer W) (w : W) :
    replay l.helios (l.sign w).2.2 w = some (l.sign w).2.1 := by
  rw [sign_eq]
  rcases hres : (l.signValidatorSets w).1 with _ | e
  · simp only
    rw [replay_append, signValidatorSets_replay]
    exact signNewBatch_replay l _
  · exact signValidatorSets_replay l w

/-- A broadcast of a replayed trace carries an answer the chain gave. -/
theorem replay_mem_sendValsetConfirm {W : Type} (helios : HeliosNetwork W) (evs : List Event)
    (w w1 : W) (h : replay helios evs w = some w1) (a : Address) (p : Hash) (v : Valset)
    (r : Option GoError) (hmem : Event.sendValsetConfirm a p v r ∈ evs) :
    ∃ w2, (helios.SendValsetConfirm a p v w2).1 = r := by
  induction evs generalizing w with
  | nil => simp at hmem
  | cons e rest ih =>
    rcases List.mem_cons.1 hmem with heq | hrest
    · rw [← heq] at h
      simp only [replay] at h
      split at h
      · next hans => exact ⟨w, hans⟩
      · exact absurd h (by simp)
    · cases e with
      | oldestUnsignedValsets addr => exact ih _ h hrest
      | oldestUnsignedTransactionBatch addr => exact ih _ h hrest
      | sendValsetConfirm a2 p2 v2 r2 =>
        simp only [replay] at h
        split at h
        · exact ih _ h hrest
        · exact absurd h (by simp)
      | sendBatchConfirm a2 p2 v2 r2 =>
        simp only [replay] at h
        split at h
        · exact ih _ h hrest
        · exact absurd h (by simp)
      | unbatchedTokenFees => exact absurd h (by simp [replay])
      | queryUSDPrice t => exact absurd h (by simp [replay])
      | sendRequestBatch d => exact absurd h (by simp [replay])

/-- A batch broadcast of a replayed trace carries an answer the chain gave. -/
theorem replay_mem_sendBatchConfirm {W : Type} (helios : HeliosNetwork W) (evs : List Event)
    (w w1 : W) (h : replay helios evs w = some w1) (a : Address) (p : Hash)
    (b : OutgoingTxBatch) (r : Option GoError) (hmem : Event.sendBatchConfirm a p b r ∈ evs) :
    ∃ w2, (helios.SendBatchConfirm a p b w2).1 = r := by
  induction evs generalizing w with
  | nil => simp at hmem
  | cons e rest ih =>
    rcases List.mem_cons.1 hmem with heq | hrest
    · rw [← heq] at h
      simp only [replay] at h
      split at h
      · next hans => exact ⟨w, hans⟩
      · exact absurd h (by simp)
    · cases e with
      | oldestUnsignedValsets addr => exact ih _ h hrest
      | oldestUnsignedTransactionBatch addr => exact ih _ h hrest
      | sendValsetConfirm a2 p2 v2 r2 =>
        simp only [replay] at h
        split at h
        · exact ih _ h hrest
        · exact absurd h (by simp)
      | sendBatchConfirm a2 p2 v2 r2 =>
        simp only [replay] at h
        split at h
        · exact ih _ h hrest
        · exact absurd h (by simp)
      | unbatchedTokenFees => exact absurd h (by simp [replay])
      | queryUSDPrice t => exact absurd h (by simp [replay])
      | sendRequestBatch d => exact absurd h (by simp [replay])

theorem mem_of_mem_confirmedValsets (evs : List Event) (a : Address) (p : Hash) (v : Valset)
    (h : (a, p, v) ∈ confirmedValsets evs) : Event.sendValsetConfirm a p v none ∈ evs := by
  induction evs with
  | nil => simp [confirmedValsets] at h
  | cons e rest ih =>
    cases e with
    | sendValsetConfirm a2 p2 v2 r2 =>
      cases r2 with
      | none =>
        simp only [confirmedValsets, List.mem_cons, Prod.mk.injEq] at h
        rcases h with ⟨h1, h2, h3⟩ | h
        · rw [h1, h2, h3]
          exact List.mem_cons_self _ _
        · exact List.mem_cons_of_mem _ (ih h)
      | some e2 =>
        simp only [confirmedValsets] at h
        exact List.mem_cons_of_mem _ (ih h)
    | _ =>
      simp only [confirmedValsets] at h
      exact List.mem_cons_of_mem _ (ih h)

/-- When the chain accepts every valset of the list in turn, the loop makes
exactly these broadcasts and leaves the chain in the world they lead to. -/
theorem confirmValsets_of_acceptsAll {W : Type} (l : signer W) (hm : 0 < l.maxAttempts)
    (L : List Valset) (w wEnd : W)
    (h : acceptsAll l.helios l.cfg.EthereumAddr l.peggyID L w = some wEnd) :
    l.confirmValsets L w
      = (none, wEnd,
          L.map fun vs => Event.sendValsetConfirm l.cfg.EthereumAddr l.peggyID vs none) := by
  induction L generalizing w with
  | nil =>
    simp only [acceptsAll, Option.some.injEq] at h
    rw [← h]
    rfl
  | cons vs rest ih =>
    rw [acceptsAll] at h
    rcases hans : l.helios.SendValsetConfirm l.cfg.EthereumAddr l.peggyID vs w with ⟨r, w1⟩
    rw [hans] at h
    cases r with
    | some e => exact absurd h (by simp)
    | none =>
      simp only at h
      have hfn : l.sendValsetConfirmFn vs w
          = (none, w1, [Event.sendValsetConfirm l.cfg.EthereumAddr l.peggyID vs none]) := by
        simp only [signer.sendValsetConfirmFn, hans]
      rw [confirmValsets_cons, retry_of_first_ok _ l.maxAttempts hm _ _ _ hfn]
      simp only
      rw [ih w1 h]
      rfl

/-! ## The claims on the signer -/

/-- C3: when the retrier returns an error for the send_valset_confirm of the
valset at position i (after `pre`, the i valsets before it, were confirmed), the
tick returns that error; its trace is the valsets query, the broadcasts for
`pre` and the failed attempts for that valset, and nothing else: no broadcast
for a later valset, no oldest_unsigned_batch query and no send_batch_confirm. -/
theorem sign_valset_confirm_failure {W : Type} (l : signer W) (w w1 w2 w3 : W)
    (pre post : List Valset) (vs : Valset) (e0 : Option GoError) (evs1 evs2 : List Event)
    (err : GoError)
    (hq : l.helios.OldestUnsignedValsets l.cfg.CosmosAddr w = ((pre ++ vs :: post, e0), w1))
    (hpre : l.confirmValsets pre w1 = (none, w2, evs1))
    (hsend : retry l.maxAttempts (l.sendValsetConfirmFn vs) w2 = (some err, w3, evs2)) :
    l.sign w = (some err, w3, [Event.oldestUnsignedValsets l.cfg.CosmosAddr] ++ (evs1 ++ evs2)) ∧
      (∀ ev ∈ evs1, ∃ v ∈ pre, ∃ r,
        ev = Event.sendValsetConfirm l.cfg.EthereumAddr l.peggyID v r) ∧
      (∀ ev ∈ evs2, ∃ e,
        ev = Event.sendValsetConfirm l.cfg.EthereumAddr l.peggyID vs (some e)) := by
  have hm : 0 < l.maxAttempts := by
    by_contra h0
    have h0 : l.maxAttempts = 0 := by omega
    rw [h0, retry_zero] at hsend
    simp at hsend
  refine ⟨?_, ?_, ?_⟩
  · rw [sign_eq, signValidatorSets_eq l hm w w1 _ e0 hq,
      confirmValsets_append_failure l pre post vs w1 w2 w3 evs1 evs2 err hpre hsend]
  · have h := confirmValsets_events l pre w1
    rw [hpre] at h
    exact h
  · intro ev hev
    rcases retry_send _ _ (sendValsetConfirmFn_event l vs) l.maxAttempts hm w2 with
      ⟨errs, h1, _⟩ | ⟨errs, e, _, h2, _⟩
    · rw [hsend] at h1
      simp at h1
    · rw [hsend] at h2
      simp only at h2
      rw [h2, List.mem_map] at hev
      obtain ⟨e, _, he⟩ := hev
      exact ⟨e, he.symm⟩

/-- C3, witness: of the valsets 7, 8, 9 the chain rejects 8; the tick confirms 7,
tries 8 twice and stops with the error. -/
theorem sign_valset_confirm_failure_witness :
    (Demo.signer [Demo.valset 7, Demo.valset 8, Demo.valset 9] (some Demo.batch)
        (fun n => n == 8)).sign 0
      = (some "rejected", 3, [Event.oldestUnsignedValsets []] ++
          ([Event.sendValsetConfirm (BytesToAddress [1]) (List.replicate 32 17)
              (Demo.valset 7) none] ++
            [Event.sendValsetConfirm (BytesToAddress [1]) (List.replicate 32 17)
              (Demo.valset 8) (some "rejected"),
            Event.sendValsetConfirm (BytesToAddress [1]) (List.replicate 32 17)
              (Demo.valset 8) (some "rejected")])) :=
  (sign_valset_confirm_failure
    (Demo.signer [Demo.valset 7, Demo.valset 8, Demo.valset 9] (some Demo.batch)
      (fun n => n == 8)) 0 0 1 3 [Demo.valset 7] [Demo.valset 9] (Demo.valset 8) none
    _ _ "rejected" rfl rfl rfl).1

/-- C4: in a tick with at least one attempt per call, where the home chain
returned the list L of unsigned valsets. The trace of the tick is what the chain
did: each event is the call made on the chain, in order, each broadcast with the
error the chain returned, ending in the world the tick returns. If the chain
accepts the confirmation of every valset of L in turn, phase 1 makes exactly one
send_valset_confirm per valset of L, in the order of L, with the validator's
foreign address and the peg id, leaves the chain in the world after these
broadcasts and goes on to phase 2 from there. If every broadcast of the tick
succeeded, the tick returns no error and its confirmations are exactly those of
L; and whenever the tick returns no error, the valsets whose confirmation
succeeded are exactly L, in order, each accepted by the chain. -/
theorem sign_confirms_every_valset {W : Type} (l : signer W) (w w1 : W) (L : List Valset)
    (e0 : Option GoError) (hm : 0 < l.maxAttempts)
    (hq : l.helios.OldestUnsignedValsets l.cfg.CosmosAddr w = ((L, e0), w1)) :
    replay l.helios (l.sign w).2.2 w = some (l.sign w).2.1 ∧
    (∀ wEnd, acceptsAll l.helios l.cfg.EthereumAddr l.peggyID L w1 = some wEnd →
      l.signValidatorSets w
        = (none, wEnd, Event.oldestUnsignedValsets l.cfg.CosmosAddr ::
            L.map fun vs => Event.sendValsetConfirm l.cfg.EthereumAddr l.peggyID vs none) ∧
      l.sign w
        = ((l.signNewBatch wEnd).1, (l.signNewBatch wEnd).2.1,
            (Event.oldestUnsignedValsets l.cfg.CosmosAddr ::
              L.map fun vs => Event.sendValsetConfirm l.cfg.EthereumAddr l.peggyID vs none) ++
              (l.signNewBatch wEnd).2.2) ∧
      valsetConfirms (l.sign w).2.2
        = L.map fun vs => (l.cfg.EthereumAddr, l.peggyID, vs, none)) ∧
    (allBroadcastsSucceed (l.sign w).2.2 = true →
      (l.sign w).1 = none ∧
      valsetConfirms (l.sign w).2.2
        = L.map fun vs => (l.cfg.EthereumAddr, l.peggyID, vs, none)) ∧
    ((l.sign w).1 = none →
      confirmedValsets (l.sign w).2.2 = (L.map fun vs => (l.cfg.EthereumAddr, l.peggyID, vs)) ∧
      ∀ vs ∈ L, ∃ w2,
        (l.helios.SendValsetConfirm l.cfg.EthereumAddr l.peggyID vs w2).1 = none) := by
  have hv := signValidatorSets_eq l hm w w1 L e0 hq
  have hs := sign_eq l w
  rw [hv] at hs
  simp only at hs
  have hconf : (l.sign w).1 = none →
      confirmedValsets (l.sign w).2.2
        = L.map fun vs => (l.cfg.EthereumAddr, l.peggyID, vs) := by
    intro hnone
    rcases hr : (l.confirmValsets L w1).1 with _ | e
    · have i2 := confirmValsets_ok l hm L w1 hr
      rw [hr] at hs
      simp only at hs
      obtain ⟨_, b2, _⟩ := signNewBatch_trace l hm (l.confirmValsets L w1).2.1
      rw [hs]
      simp only
      rw [confirmedValsets_append, confirmedValsets_append, i2, b2]
      simp [confirmedValsets]
    · rw [hr] at hs
      simp only at hs
      rw [hs] at hnone
      simp at hnone
  refine ⟨sign_replay l w, ?_, ?_, ?_⟩
  · intro wEnd hacc
    have hc := confirmValsets_of_acceptsAll l hm L w1 wEnd hacc
    have hv2 : l.signValidatorSets w
        = (none, wEnd, Event.oldestUnsignedValsets l.cfg.CosmosAddr ::
            L.map fun vs => Event.sendValsetConfirm l.cfg.EthereumAddr l.peggyID vs none) := by
      rw [hv, hc]
      rfl
    have hs2 : l.sign w
        = ((l.signNewBatch wEnd).1, (l.signNewBatch wEnd).2.1,
            (Event.oldestUnsignedValsets l.cfg.CosmosAddr ::
              L.map fun vs => Event.sendValsetConfirm l.cfg.EthereumAddr l.peggyID vs none) ++
              (l.signNewBatch wEnd).2.2) := by
      rw [sign_eq, hv2]
    refine ⟨hv2, hs2, ?_⟩
    rw [hs2]
    simp only
    obtain ⟨b1, _, _⟩ := signNewBatch_trace l hm wEnd
    rw [valsetConfirms_append, b1, List.append_nil]
    have hmap : ∀ M : List Valset,
        valsetConfirms (M.map fun vs =>
          Event.sendValsetConfirm l.cfg.EthereumAddr l.peggyID vs none)
          = M.map fun vs => (l.cfg.EthereumAddr, l.peggyID, vs, none) := by
      intro M
      induction M with
      | nil => rfl
      | cons v rest ih => simp only [List.map_cons, valsetConfirms, ih]
    simp only [valsetConfirms, hmap]
  · intro hall
    rcases hr : (l.confirmValsets L w1).1 with _ | e
    · rw [hr] at hs
      simp only at hs
      rw [hs] at hall ⊢
      simp only at hall ⊢
      rw [allBroadcastsSucceed_append, allBroadcastsSucceed_append, Bool.and_eq_true,
        Bool.and_eq_true] at hall
      obtain ⟨_, i2⟩ := confirmValsets_all_ok l hm L w1 hall.1.2
      obtain ⟨b1, _, b3⟩ := signNewBatch_trace l hm (l.confirmValsets L w1).2.1
      refine ⟨b3 hall.2, ?_⟩
      rw [valsetConfirms_append, valsetConfirms_append, i2, b1]
      simp [valsetConfirms]
    · rw [hr] at hs
      simp only at hs
      rw [hs] at hall
      simp only at hall
      rw [allBroadcastsSucceed_append, Bool.and_eq_true] at hall
      obtain ⟨i1, _⟩ := confirmValsets_all_ok l hm L w1 hall.2
      rw [hr] at i1
      simp at i1
  · intro hnone
    refine ⟨hconf hnone, ?_⟩
    intro vs hvs
    have hin : (l.cfg.EthereumAddr, l.peggyID, vs) ∈ confirmedValsets (l.sign w).2.2 := by
      rw [hconf hnone]
      exact List.mem_map.2 ⟨vs, hvs, rfl⟩
    exact replay_mem_sendValsetConfirm l.helios _ w _ (sign_replay l w) _ _ _ _
      (mem_of_mem_confirmedValsets _ _ _ _ hin)

/-- C4, witness: the chain lists the valsets 7 and 8 and accepts everything;
the tick broadcasts 7, then 8, then the batch, and the chain has counted three
broadcasts. -/
theorem sign_confirms_every_valset_witness :
    replay (Demo.helios [Demo.valset 7, Demo.valset 8] (some Demo.batch) (fun _ => false))
        ((Demo.signer [Demo.valset 7, Demo.valset 8] (some Demo.batch)
          (fun _ => false)).sign 0).2.2 0 = some 3 ∧
      (Demo.signer [Demo.valset 7, Demo.valset 8] (some Demo.batch) (fun _ => false)).sign 0
        = (none, 3, [Event.oldestUnsignedValsets [],
            Event.sendValsetConfirm (BytesToAddress [1]) (List.replicate 32 17)
              (Demo.valset 7) none,
            Event.sendValsetConfirm (BytesToAddress [1]) (List.replicate 32 17)
              (Demo.valset 8) none,
            Event.oldestUnsignedTransactionBatch [],
            Event.sendBatchConfirm (BytesToAddress [1]) (List.replicate 32 17)
              Demo.batch none]) ∧
      valsetConfirms ((Demo.signer [Demo.valset 7, Demo.valset 8] (some Demo.batch)
          (fun _ => false)).sign 0).2.2
        = [Demo.valset 7, Demo.valset 8].map fun vs =>
            (BytesToAddress [1], List.replicate 32 17, vs, none) :=
  ⟨(sign_confirms_every_valset
      (Demo.signer [Demo.valset 7, Demo.valset 8] (some Demo.batch) (fun _ => false)) 0 0
      [Demo.valset 7, Demo.valset 8] none (by decide) rfl).1,
    ((sign_confirms_every_valset
      (Demo.signer [Demo.valset 7, Demo.valset 8] (some Demo.batch) (fun _ => false)) 0 0
      [Demo.valset 7, Demo.valset 8] none (by decide) rfl).2.1 2 rfl).2.1,
    ((sign_confirms_every_valset
      (Demo.signer [Demo.valset 7, Demo.valset 8] (some Demo.batch) (fun _ => false)) 0 0
      [Demo.valset 7, Demo.valset 8] none (by decide) rfl).2.1 2 rfl).2.2⟩

/-- C5: in a tick with at least one attempt per call where the valsets query
returns an empty list, the batch query is still made, and the trace of the tick
is what the chain did (each event the call made on the chain, each broadcast
with the error the chain returned, ending in the world the tick returns). If
the query returns no batch the tick ends there without error and without
send_batch_confirm. If it returns a batch B, every further call of the tick is
a send_batch_confirm of B made on the chain with the validator's foreign address
and the peg id, the first from the world the batch query left; there is at
least one; the tick returns no error exactly when the chain accepted one of
them: when the chain accepts the first, the tick is that one broadcast and
returns no error in the world the broadcast left, and on a chain that rejects
every broadcast of B the tick returns an error. -/
theorem sign_batch_phase_without_valsets {W : Type} (l : signer W) (w w1 w2 : W)
    (e1 e2 : Option GoError) (ob : Option OutgoingTxBatch) (hm : 0 < l.maxAttempts)
    (hq1 : l.helios.OldestUnsignedValsets l.cfg.CosmosAddr w = (([], e1), w1))
    (hq2 : l.helios.OldestUnsignedTransactionBatch l.cfg.CosmosAddr w1 = ((ob, e2), w2)) :
    replay l.helios (l.sign w).2.2 w = some (l.sign w).2.1 ∧
    (ob = none →
      l.sign w = (none, w2, [Event.oldestUnsignedValsets l.cfg.CosmosAddr,
        Event.oldestUnsignedTransactionBatch l.cfg.CosmosAddr])) ∧
    (∀ batch, ob = some batch →
      (∃ evs : List Event,
        (l.sign w).2.2 = [Event.oldestUnsignedValsets l.cfg.CosmosAddr,
          Event.oldestUnsignedTransactionBatch l.cfg.CosmosAddr] ++ evs ∧
        evs ≠ [] ∧
        (∀ ev ∈ evs, ∃ r,
          ev = Event.sendBatchConfirm l.cfg.EthereumAddr l.peggyID batch r) ∧
        ((l.sign w).1 = none ↔
          Event.sendBatchConfirm l.cfg.EthereumAddr l.peggyID batch none ∈ evs) ∧
        replay l.helios evs w2 = some (l.sign w).2.1) ∧
      (∀ w3, l.helios.SendBatchConfirm l.cfg.EthereumAddr l.peggyID batch w2 = (none, w3) →
        l.sign w = (none, w3, [Event.oldestUnsignedValsets l.cfg.CosmosAddr,
          Event.oldestUnsignedTransactionBatch l.cfg.CosmosAddr,
          Event.sendBatchConfirm l.cfg.EthereumAddr l.peggyID batch none])) ∧
      ((∀ w3, (l.helios.SendBatchConfirm l.cfg.EthereumAddr l.peggyID batch w3).1 ≠ none) →
        (l.sign w).1 ≠ none) ∧
      ((l.sign w).1 = none →
        ∃ w3, (l.helios.SendBatchConfirm l.cfg.EthereumAddr l.peggyID batch w3).1 = none)) := by
  have hv := signValidatorSets_eq l hm w w1 [] e1 hq1
  have hs := sign_eq l w
  rw [hv] at hs
  simp only [signer.confirmValsets, List.append_nil] at hs
  refine ⟨sign_replay l w, ?_, ?_⟩
  · intro hob
    rw [hob] at hq2
    rw [hs, signNewBatch_none l hm w1 w2 e2 hq2]
    rfl
  · intro batch hob
    rw [hob] at hq2
    have hsign : l.sign w
        = ((retry l.maxAttempts (l.sendBatchConfirmFn batch) w2).1,
            (retry l.maxAttempts (l.sendBatchConfirmFn batch) w2).2.1,
            [Event.oldestUnsignedValsets l.cfg.CosmosAddr,
              Event.oldestUnsignedTransactionBatch l.cfg.CosmosAddr] ++
              (retry l.maxAttempts (l.sendBatchConfirmFn batch) w2).2.2) := by
      rw [hs, signNewBatch_some l hm w1 w2 batch e2 hq2]
      rfl
    have hrep := retry_replay l.helios (l.sendBatchConfirmFn batch)
      (sendBatchConfirmFn_replay l batch) l.maxAttempts w2
    have hfacts : (retry l.maxAttempts (l.sendBatchConfirmFn batch) w2).2.2 ≠ [] ∧
        (∀ ev ∈ (retry l.maxAttempts (l.sendBatchConfirmFn batch) w2).2.2, ∃ r,
          ev = Event.sendBatchConfirm l.cfg.EthereumAddr l.peggyID batch r) ∧
        ((retry l.maxAttempts (l.sendBatchConfirmFn batch) w2).1 = none ↔
          Event.sendBatchConfirm l.cfg.EthereumAddr l.peggyID batch none
            ∈ (retry l.maxAttempts (l.sendBatchConfirmFn batch) w2).2.2) := by
      rcases retry_send _ _ (sendBatchConfirmFn_event l batch) l.maxAttempts hm w2 with
        ⟨errs, h1, h2⟩ | ⟨errs, e, h1, h2, h3⟩
      · rw [h1, h2]
        refine ⟨by simp, ?_, ?_⟩
        · intro ev hev
          simp only [List.mem_append, List.mem_map, List.mem_singleton] at hev
          rcases hev with ⟨e, _, he⟩ | he
          · exact ⟨_, he.symm⟩
          · exact ⟨_, he⟩
        · simp
      · rw [h1, h2]
        refine ⟨by simpa using h3, ?_, ?_⟩
        · intro ev hev
          simp only [List.mem_map] at hev
          obtain ⟨e, _, he⟩ := hev
          exact ⟨_, he.symm⟩
        · simp
    obtain ⟨f1, f2, f3⟩ := hfacts
    have hacc : (l.sign w).1 = none →
        ∃ w3, (l.helios.SendBatchConfirm l.cfg.EthereumAddr l.peggyID batch w3).1 = none := by
      intro hnone
      rw [hsign] at hnone
      exact replay_mem_sendBatchConfirm l.helios _ w2 _ hrep _ _ _ _ (f3.1 hnone)
    refine ⟨⟨(retry l.maxAttempts (l.sendBatchConfirmFn batch) w2).2.2, ?_, f1, f2, ?_, ?_⟩,
      ?_, ?_, hacc⟩
    · rw [hsign]
    · rw [hsign]
      exact f3
    · rw [hsign]
      exact hrep
    · intro w3 hans
      have hfn : l.sendBatchConfirmFn batch w2
          = (none, w3, [Event.sendBatchConfirm l.cfg.EthereumAddr l.peggyID batch none]) := by
        simp only [signer.sendBatchConfirmFn, hans]
      rw [hsign, retry_of_first_ok _ l.maxAttempts hm _ _ _ hfn]
      rfl
    · intro hrej hnone
      obtain ⟨w3, h3⟩ := hacc hnone
      exact hrej w3 h3

/-- C5, witness: no valset is listed and the batch is; the tick confirms it
with one broadcast and the chain has counted it. -/
theorem sign_batch_phase_without_valsets_witness :
    replay (Demo.helios [] (some Demo.batch) (fun _ => false))
        ((Demo.signer [] (some Demo.batch) (fun _ => false)).sign 0).2.2 0 = some 1 ∧
      (Demo.signer [] (some Demo.batch) (fun _ => false)).sign 0
        = (none, 1, [Event.oldestUnsignedValsets [], Event.oldestUnsignedTransactionBatch [],
            Event.sendBatchConfirm (BytesToAddress [1]) (List.replicate 32 17)
              Demo.batch none]) :=
  ⟨(sign_batch_phase_without_valsets (Demo.signer [] (some Demo.batch) (fun _ => false))
      0 0 0 none none (some Demo.batch) (by decide) rfl rfl).1,
    ((sign_batch_phase_without_valsets (Demo.signer [] (some Demo.batch) (fun _ => false))
      0 0 0 none none (some Demo.batch) (by decide) rfl rfl).2.2 Demo.batch rfl).2.1 1 rfl⟩

/-- C6, the code at the failing input: on a chain whose reads fail once and
then return a valset and a batch, the tick with `max_attempts = 2` makes each
read once, issues no confirmation at all and returns no error, although the
second call of either read would have returned a non-empty result; the same
holds with `max_attempts = 10`. -/
theorem sign_does_not_retry_failed_reads :
    Flaky.signerTwo.sign (0, 0)
        = (none, (1, 1), [Event.oldestUnsignedValsets [],
            Event.oldestUnsignedTransactionBatch []]) ∧
      Flaky.signerTen.sign (0, 0)
        = (none, (1, 1), [Event.oldestUnsignedValsets [],
            Event.oldestUnsignedTransactionBatch []]) ∧
      (Flaky.helios.OldestUnsignedValsets [] (1, 1)).1 = ([Flaky.valset], none) ∧
      (Flaky.helios.OldestUnsignedTransactionBatch [] (1, 1)).1 = (some Flaky.batch, none) := by
  decide

/-! ## The claims on the peggy denom utilities -/

/-- C8: ValidatePeggyCoin returns without error exactly when the denom is
"helios/" followed by "0x" and 40 hexadecimal digits of either case and nothing
else; it then returns the part of the denom after "helios/", and in every other
case it returns the empty string with its error. -/
theorem ValidatePeggyCoin_accepts_exactly_peggy_denoms (v : Coin) :
    ((ValidatePeggyCoin v).2 = none ↔
      ∃ digits : GoString, digits.length = 40 ∧
        (∀ c ∈ digits, c ∈ ascii "0123456789abcdefABCDEF") ∧
        v.Denom = ascii "helios/" ++ ascii "0x" ++ digits) ∧
    (∀ contract : GoString, (ValidatePeggyCoin v).2 = none →
      v.Denom = ascii "helios/" ++ contract → (ValidatePeggyCoin v).1 = contract) ∧
    ((ValidatePeggyCoin v).2 ≠ none → (ValidatePeggyCoin v).1 = []) := by
  refine ⟨⟨?_, ?_⟩, ?_, ValidatePeggyCoin_err_empty v⟩
  · intro h
    obtain ⟨digits, hlen, hall, hd⟩ := ValidatePeggyCoin_ok_shape v h
    exact ⟨digits, hlen, fun c hc => (isHexByte_iff_mem c).1 (hall c hc), hd⟩
  · rintro ⟨digits, hlen, hall, hd⟩
    rw [ValidatePeggyCoin_of_peggy_denom v digits hlen
      (fun c hc => (isHexByte_iff_mem c).2 (hall c hc)) hd]
  · intro contract h hd
    obtain ⟨digits, hlen, hall, hd2⟩ := ValidatePeggyCoin_ok_shape v h
    rw [ValidatePeggyCoin_of_peggy_denom v digits hlen hall hd2]
    rw [hd2, List.append_assoc] at hd
    exact List.append_cancel_left hd

/-- C9, as amended: for every ERC20 token whose amount is non-negative and below
2^256, PeggyCoin returns a coin whose denom has length PeggyDenomLen and is
accepted by ValidatePeggyCoin, and ERC20FromPeggyCoin of that coin returns no
error and the token itself (same contract, same amount). -/
theorem ERC20FromPeggyCoin_PeggyCoin (keccak256 : GoString → List Byte) (e : ERC20Token)
    (h0 : 0 ≤ e.Amount) (h1 : e.Amount < 2 ^ 256) :
    ∃ coin : Coin, e.PeggyCoin keccak256 = some coin ∧
      coin.Denom.length = PeggyDenomLen ∧
      (ValidatePeggyCoin coin).2 = none ∧
      ERC20FromPeggyCoin coin = (some e, none) := by
  obtain ⟨_, hall, hlen⟩ :=
    checksumLoop_hexEncode (keccak256 (hexEncode e.Contract.bytes)) e.Contract.bytes 2
  have hlen40 : (checksumLoop (keccak256 (hexEncode e.Contract.bytes)) 2
      (hexEncode e.Contract.bytes)).length = 40 := by
    rw [hlen, e.Contract.size]; rfl
  have hsmall : ¬ (2 ^ 256 ≤ e.Amount.natAbs) := by omega
  have hdenom : PeggyDenomPrefix ++ ascii "/" ++ e.Contract.checksumHex keccak256
      = ascii "helios/" ++ ascii "0x" ++ checksumLoop (keccak256 (hexEncode e.Contract.bytes)) 2
          (hexEncode e.Contract.bytes) := by
    rw [Address.checksumHex_eq]
    have : ascii "helios/" = PeggyDenomPrefix ++ ascii "/" := by decide
    rw [this]; simp
  have hcoin : e.PeggyCoin keccak256
      = some ⟨PeggyDenomPrefix ++ ascii "/" ++ e.Contract.checksumHex keccak256, e.Amount⟩ := by
    unfold ERC20Token.PeggyCoin
    rw [NewIntFromBigInt_eq, if_neg hsmall]
    simp only [NewCoin]
    have hv : ValidateDenom (PeggyDenomPrefix ++ ascii "/" ++ e.Contract.checksumHex keccak256)
        = true := by
      rw [Address.checksumHex_eq]
      exact ValidateDenom_peggy _ hlen40 hall
    rw [hv]
    simp [not_lt.2 h0]
  have hval := ValidatePeggyCoin_of_peggy_denom
    ⟨PeggyDenomPrefix ++ ascii "/" ++ e.Contract.checksumHex keccak256, e.Amount⟩ _ hlen40 hall
    hdenom
  refine ⟨_, hcoin, ?_, ?_, ?_⟩
  · show (PeggyDenomPrefix ++ ascii "/" ++ e.Contract.checksumHex keccak256).length = _
    rw [hdenom, List.length_append, List.length_append, hlen40]; rfl
  · rw [hval]
  · unfold ERC20FromPeggyCoin
    rw [hval]
    simp only
    rw [← Address.checksumHex_eq, HexToAddress_checksumHex]

/-- C9, witness: the token of amount 7 at the address 0x00..abcd. -/
theorem ERC20FromPeggyCoin_PeggyCoin_witness :
    ∃ coin : Coin,
      (ERC20Token.mk 7 (BytesToAddress [0xab, 0xcd])).PeggyCoin (fun _ => []) = some coin ∧
      coin.Denom.length = PeggyDenomLen ∧
      (ValidatePeggyCoin coin).2 = none ∧
      ERC20FromPeggyCoin coin = (some (ERC20Token.mk 7 (BytesToAddress [0xab, 0xcd])), none) :=
  ERC20FromPeggyCoin_PeggyCoin (fun _ => []) (ERC20Token.mk 7 (BytesToAddress [0xab, 0xcd]))
    (by norm_num) (by norm_num)

/-- C9, counterexample: the amount 2^256 is non-negative, and PeggyCoin panics on
it whatever the hash, so that no coin is produced to convert back. -/
theorem PeggyCoin_panics_at_two_pow_256 :
    (0 : Int) ≤ (ERC20Token.mk (2 ^ 256) (BytesToAddress [])).Amount ∧
    ∀ keccak256 : GoString → List Byte,
      (ERC20Token.mk (2 ^ 256) (BytesToAddress [])).PeggyCoin keccak256 = none := by
  have h0 : (0 : Int) ≤ 2 ^ 256 := by positivity
  have h1 : 2 ^ 256 ≤ Int.natAbs (2 ^ 256) := by
    rw [Int.natAbs_pow]
    exact le_refl _
  exact ⟨h0, fun keccak256 => PeggyCoin_of_large keccak256 _ h1⟩

/-! ## The claims on the batch requester -/

/-- C1: with a non-zero minimum fee F, when the price feed returns the price p
for the token of a fee entry with total fees n and n * 10^-18 * p < F exactly,
requestBatch only queries the price: it issues no send_request_batch. -/
theorem requestBatch_below_threshold {W : Type} (l : batchRequestLoop)
    (PeggyDenomString : Address → GoString) (injective : InjectiveNetwork W)
    (feed : PriceFeed W) (fee : BatchFees) (w w1 : W) (p : Float64)
    (hF : l.minBatchFeeUSD.isZero = false)
    (hq : feed.QueryUSDPrice (HexToAddress fee.Token) w = ((p, none), w1))
    (hlt : (fee.TotalFees : ℚ) * (10 : ℚ) ^ (-18 : Int) * p.dec.toRat
      < l.minBatchFeeUSD.dec.toRat) :
    l.requestBatch PeggyDenomString injective feed fee w
        = ((), w1, [Event.queryUSDPrice (HexToAddress fee.Token)]) ∧
      requestedDenoms (l.requestBatch PeggyDenomString injective feed fee w).2.2 = [] := by
  have h : l.requestBatch PeggyDenomString injective feed fee w
      = ((), w1, [Event.queryUSDPrice (HexToAddress fee.Token)]) := by
    unfold batchRequestLoop.requestBatch
    simp only [checkFeeThreshold_of_price l feed _ fee.TotalFees w w1 p hF hq,
      decide_eq_false (not_not.2 hlt)]
  rw [h]
  exact ⟨rfl, rfl⟩

/-- C1, witness: F = 49.0, n = 10^18 and p = 48.99 issue nothing. -/
theorem requestBatch_below_threshold_witness :
    S4.loop.requestBatch S4.denomString (S4.chain [S4.fee]) (S4.feed S4.price4899) S4.fee 0
        = ((), 1, [Event.queryUSDPrice (HexToAddress S4.fee.Token)]) ∧
      requestedDenoms (S4.loop.requestBatch S4.denomString (S4.chain [S4.fee])
        (S4.feed S4.price4899) S4.fee 0).2.2 = [] :=
  requestBatch_below_threshold S4.loop S4.denomString (S4.chain [S4.fee])
    (S4.feed S4.price4899) S4.fee 0 1 S4.price4899 rfl rfl
    (by
      show ((10 ^ 18 : Int) : ℚ) * (10 : ℚ) ^ (-18 : Int)
        * Decimal.toRat { value := 4899, exp := -2 } < Decimal.toRat { value := 49, exp := 0 }
      norm_num [Decimal.toRat])

/-- C2: with a non-zero minimum fee F, when the price feed returns the price p
for the token of a fee entry with total fees n and n * 10^-18 * p >= F,
requestBatch issues exactly one send_request_batch, after the price query;
its denom is erc20ContractMapping[T] when the token address is a key of the
mapping and the peggy denom string of the address otherwise. -/
theorem requestBatch_at_threshold {W : Type} (l : batchRequestLoop)
    (PeggyDenomString : Address → GoString) (injective : InjectiveNetwork W)
    (feed : PriceFeed W) (fee : BatchFees) (w w1 : W) (p : Float64)
    (hF : l.minBatchFeeUSD.isZero = false)
    (hq : feed.QueryUSDPrice (HexToAddress fee.Token) w = ((p, none), w1))
    (hge : l.minBatchFeeUSD.dec.toRat
      ≤ (fee.TotalFees : ℚ) * (10 : ℚ) ^ (-18 : Int) * p.dec.toRat) :
    ∃ denom : GoString,
      l.requestBatch PeggyDenomString injective feed fee w
        = ((), (injective.SendRequestBatch denom w1).2,
            [Event.queryUSDPrice (HexToAddress fee.Token), Event.sendRequestBatch denom]) ∧
      requestedDenoms (l.requestBatch PeggyDenomString injective feed fee w).2.2 = [denom] ∧
      (∀ cosmosDenom, l.erc20ContractMapping (HexToAddress fee.Token) = some cosmosDenom →
        denom = cosmosDenom) ∧
      (l.erc20ContractMapping (HexToAddress fee.Token) = none →
        denom = PeggyDenomString (HexToAddress fee.Token)) := by
  refine ⟨l.tokenDenom PeggyDenomString (HexToAddress fee.Token), ?_⟩
  have h : l.requestBatch PeggyDenomString injective feed fee w
      = ((), (injective.SendRequestBatch
            (l.tokenDenom PeggyDenomString (HexToAddress fee.Token)) w1).2,
          [Event.queryUSDPrice (HexToAddress fee.Token),
            Event.sendRequestBatch (l.tokenDenom PeggyDenomString (HexToAddress fee.Token))]) := by
    unfold batchRequestLoop.requestBatch
    simp only [checkFeeThreshold_of_price l feed _ fee.TotalFees w w1 p hF hq,
      decide_eq_true (not_lt.2 hge)]
    rfl
  rw [h]
  refine ⟨rfl, rfl, ?_, ?_⟩
  · intro cosmosDenom hm
    simp only [batchRequestLoop.tokenDenom, hm]
  · intro hm
    simp only [batchRequestLoop.tokenDenom, hm]

/-- C2, witness: F = 49.0, n = 10^18 and p = 49.01 issue one
send_request_batch, for the denom of the token. -/
theorem requestBatch_at_threshold_witness :
    ∃ denom : GoString,
      S4.loop.requestBatch S4.denomString (S4.chain [S4.fee]) (S4.feed S4.price4901) S4.fee 0
        = ((), ((S4.chain [S4.fee]).SendRequestBatch denom 1).2,
            [Event.queryUSDPrice (HexToAddress S4.fee.Token), Event.sendRequestBatch denom]) ∧
      requestedDenoms (S4.loop.requestBatch S4.denomString (S4.chain [S4.fee])
        (S4.feed S4.price4901) S4.fee 0).2.2 = [denom] ∧
      (∀ cosmosDenom, S4.loop.erc20ContractMapping (HexToAddress S4.fee.Token)
        = some cosmosDenom → denom = cosmosDenom) ∧
      (S4.loop.erc20ContractMapping (HexToAddress S4.fee.Token) = none →
        denom = S4.denomString (HexToAddress S4.fee.Token)) :=
  requestBatch_at_threshold S4.loop S4.denomString (S4.chain [S4.fee])
    (S4.feed S4.price4901) S4.fee 0 1 S4.price4901 rfl rfl
    (by
      show Decimal.toRat { value := 49, exp := 0 }
        ≤ ((10 ^ 18 : Int) : ℚ) * (10 : ℚ) ^ (-18 : Int)
          * Decimal.toRat { value := 4901, exp := -2 }
      norm_num [Decimal.toRat])

/-- C7: in a tick of the batch requester with a non-zero minimum fee, an entry
whose price query returns an error gets exactly that one query and no
send_request_batch, and the loop goes on with the later entries from the world
the failed query left: over the whole loop the price is queried once per entry
of the fee list, in order, the later entries included. -/
theorem loopFn_price_feed_error {W : Type} (l : batchRequestLoop)
    (PeggyDenomString : Address → GoString) (injective : InjectiveNetwork W)
    (feed : PriceFeed W) (pre post : List BatchFees) (fee : BatchFees)
    (w w1 w2 w3 : W) (evs0 evs1 : List Event) (x : Float64) (err : GoError)
    (hF : l.minBatchFeeUSD.isZero = false)
    (hfees : l.getUnbatchedTokenFees injective w = ((pre ++ fee :: post, none), w1, evs0))
    (hpre : l.requestBatches PeggyDenomString injective feed pre w1 = ((), w2, evs1))
    (hq : feed.QueryUSDPrice (HexToAddress fee.Token) w2 = ((x, some err), w3)) :
    l.requestBatch PeggyDenomString injective feed fee w2
        = ((), w3, [Event.queryUSDPrice (HexToAddress fee.Token)]) ∧
      l.loopFn PeggyDenomString injective feed w
        = (none, (l.requestBatches PeggyDenomString injective feed post w3).2.1,
            evs0 ++ (evs1 ++ ([Event.queryUSDPrice (HexToAddress fee.Token)] ++
              (l.requestBatches PeggyDenomString injective feed post w3).2.2))) ∧
      queriedTokens (evs1 ++ ([Event.queryUSDPrice (HexToAddress fee.Token)] ++
          (l.requestBatches PeggyDenomString injective feed post w3).2.2))
        = (pre ++ fee :: post).map fun f => HexToAddress f.Token := by
  have hfee : l.requestBatch PeggyDenomString injective feed fee w2
      = ((), w3, [Event.queryUSDPrice (HexToAddress fee.Token)]) := by
    unfold batchRequestLoop.requestBatch
    simp only [checkFeeThreshold_of_error l feed _ fee.TotalFees w2 w3 x err hF hq]
  have hloop : l.requestBatches PeggyDenomString injective feed (pre ++ fee :: post) w1
      = ((), (l.requestBatches PeggyDenomString injective feed post w3).2.1,
          evs1 ++ ([Event.queryUSDPrice (HexToAddress fee.Token)] ++
            (l.requestBatches PeggyDenomString injective feed post w3).2.2)) := by
    rw [requestBatches_append, hpre]
    simp only [batchRequestLoop.requestBatches, hfee]
  refine ⟨hfee, ?_, ?_⟩
  · unfold batchRequestLoop.loopFn
    simp only [hfees, hloop]
    rw [if_neg (by simp)]
  · have h := requestBatches_queriedTokens l PeggyDenomString injective feed
      (pre ++ fee :: post) w1 hF
    rw [hloop] at h
    exact h

/-- C7, witness: of two entries the first meets a failing price feed; it is
queried once, nothing is requested, and the second entry is queried too. -/
theorem loopFn_price_feed_error_witness :
    S4.loop.requestBatch S4.denomString (S4.chain [S4.fee, S4.fee]) S4.brokenFeed S4.fee 0
        = ((), 1, [Event.queryUSDPrice (HexToAddress S4.fee.Token)]) ∧
      S4.loop.loopFn S4.denomString (S4.chain [S4.fee, S4.fee]) S4.brokenFeed 0
        = (none, (S4.loop.requestBatches S4.denomString (S4.chain [S4.fee, S4.fee])
              S4.brokenFeed [S4.fee] 1).2.1,
            [Event.unbatchedTokenFees] ++ ([] ++ ([Event.queryUSDPrice
              (HexToAddress S4.fee.Token)] ++
              (S4.loop.requestBatches S4.denomString (S4.chain [S4.fee, S4.fee])
                S4.brokenFeed [S4.fee] 1).2.2))) ∧
      queriedTokens ([] ++ ([Event.queryUSDPrice (HexToAddress S4.fee.Token)] ++
          (S4.loop.requestBatches S4.denomString (S4.chain [S4.fee, S4.fee])
            S4.brokenFeed [S4.fee] 1).2.2))
        = (([] : List BatchFees) ++ S4.fee :: [S4.fee]).map
            fun (f : BatchFees) => HexToAddress f.Token :=
  loopFn_price_feed_error S4.loop S4.denomString (S4.chain [S4.fee, S4.fee]) S4.brokenFeed
    [] [S4.fee] S4.fee 0 0 0 1 [Event.unbatchedTokenFees] []
    { isZero := true, dec := { value := 0, exp := 0 } } "price feed down" rfl rfl rfl rfl

/-! ## The validator check -/

theorem isValidatorLoop_eq (addr : Address) (b : Bool) (L : List BridgeValidator) :
    isValidatorLoop addr b L = true ↔
      b = true ∨ ∃ m ∈ L, HexToAddress m.EthereumAddress = addr := by
  induction L generalizing b with
  | nil => simp [isValidatorLoop]
  | cons v rest ih =>
    unfold isValidatorLoop
    by_cases h : HexToAddress v.EthereumAddress = addr
    · rw [if_pos h, ih]
      constructor
      · intro _
        exact Or.inr ⟨v, by simp, h⟩
      · intro _
        exact Or.inl rfl
    · rw [if_neg h, ih]
      constructor
      · rintro (hb | ⟨m, hm, he⟩)
        · exact Or.inl hb
        · exact Or.inr ⟨m, List.mem_cons_of_mem _ hm, he⟩
      · rintro (hb | ⟨m, hm, he⟩)
        · exact Or.inl hb
        · rcases List.mem_cons.1 hm with hm | hm
          · rw [hm] at he
            exact absurd he h
          · exact Or.inr ⟨m, hm, he⟩

/-- C10: when the current_valset query succeeds with a valset, isValidatorAddress
returns no error and the flag that is true exactly when some member's Ethereum
address parses (HexToAddress) to `addr`, hence false for an empty member list;
when the query fails it returns false and the query's error. -/
theorem isValidatorAddress_decides_membership {W : Type} (peggyQuery : PeggyQueryClient W)
    (addr : Address) (w : W) :
    (∀ (currentValset : Valset) (w1 : W),
      peggyQuery.CurrentValset w = ((some currentValset, none), w1) →
      ∃ isValidator : Bool,
        isValidatorAddress peggyQuery addr w = (some (isValidator, none), w1) ∧
        (isValidator = true ↔
          ∃ m ∈ currentValset.Members, HexToAddress m.EthereumAddress = addr) ∧
        (currentValset.Members = [] → isValidator = false)) ∧
    (∀ (x : Option Valset) (err : GoError) (w1 : W),
      peggyQuery.CurrentValset w = ((x, some err), w1) →
      isValidatorAddress peggyQuery addr w = (some (false, some err), w1)) := by
  constructor
  · intro currentValset w1 hq
    refine ⟨isValidatorLoop addr false currentValset.Members, ?_, ?_, ?_⟩
    · simp only [isValidatorAddress, hq]
    · rw [isValidatorLoop_eq]
      simp
    · intro hnil
      rw [hnil]
      rfl
  · intro x err w1 hq
    simp only [isValidatorAddress, hq]

end Peggo
